import Mathlib

/-!
# caja-dropbox: the path canonicalizer, the identity cache, status emblems and the menu parser

A shallow embedding of `src/caja-dropbox.c`.

* C strings (`gchar *`) are lists of characters; a `NULL` pointer is `none`.
* A `NULL`-terminated string vector (`gchar **`) is a list of strings.
* A failed `g_assert` (the process aborts) is the `Except.error` outcome.
* The two `GHashTable`s of `CajaDropbox` are finite maps, embedded as lookup
  functions into `Option`; `g_hash_table_lookup` returning `NULL` is `none`.
-/

namespace Caja

/-! ## GLib string helpers used by the source -/

/-- A C string. -/
abbrev CStr := List Char

/-- Why a run stopped before returning. -/
inductive Abort where
  /-- A `g_assert` failed. -/
  | assertion_failed
  /-- A `NULL` pointer was dereferenced. -/
  | null_dereference
  deriving DecidableEq, Repr

deriving instance DecidableEq for Except

/-- Tokens of `g_strsplit` when the number of splits is not limited: the
pieces of the string between the occurrences of the delimiter. -/
def split_all (delimiter : Char) : CStr → List CStr
  | [] => [[]]
  | c :: cs =>
    if c = delimiter then [] :: split_all delimiter cs
    else
      match split_all delimiter cs with
      | [] => [[c]]
      | t :: ts => (c :: t) :: ts

/-- Tokens of `g_strsplit` when at most `n` splits are made: after the
`n`-th delimiter the remainder of the string is the last token. -/
def split_tokens (delimiter : Char) : Nat → CStr → List CStr
  | _, [] => [[]]
  | 0, c :: cs => [c :: cs]
  | n + 1, c :: cs =>
    if c = delimiter then [] :: split_tokens delimiter n cs
    else
      match split_tokens delimiter (n + 1) cs with
      | [] => [[c]]
      | t :: ts => (c :: t) :: ts

/-- GLib `g_strsplit (string, delimiter, max_tokens)` for a one-character
delimiter: the empty string gives the empty vector; `max_tokens < 1` splits
at every delimiter; otherwise at most `max_tokens` tokens are produced, the
last one holding the remainder. -/
def g_strsplit (string : CStr) (delimiter : Char) (max_tokens : Int) : List CStr :=
  if string = [] then []
  else if max_tokens < 1 then split_all delimiter string
  else split_tokens delimiter (max_tokens - 1).toNat string

/-- Loop state of GLib `g_build_path_va`. -/
structure BuildState where
  result : CStr
  is_first : Bool
  have_leading : Bool
  single_element : Option CStr
  last_trailing : Option CStr
  deriving DecidableEq, Repr

/-- One iteration of the element loop of GLib `g_build_path_va` with the
separator `"/"`. Pointers into `element` are offsets from its start. -/
def build_step (st : BuildState) (element : CStr) : BuildState :=
  if element = [] then st
  else
    let start := element.dropWhile (fun c => c = '/')
    let start_off := element.length - start.length
    let body := start.rdropWhile (fun c => c = '/')
    let trailing_off := (element.rdropWhile (fun c => c = '/')).length
    let st1 : BuildState :=
      if st.have_leading = false then
        { st with
          single_element :=
            if trailing_off ≤ start_off then some element else st.single_element
          result := st.result ++ element.take start_off
          have_leading := true }
      else { st with single_element := none }
    let st2 : BuildState := { st1 with last_trailing := some (element.drop trailing_off) }
    if body = [] then st2
    else
      { st2 with
        result := st2.result ++ (if st2.is_first then [] else ['/']) ++ body
        is_first := false }

/-- GLib `g_build_filenamev (args)` on a POSIX system: joins the elements
with `/`, dropping empty elements and the separators at the joints. -/
def g_build_filenamev (args : List CStr) : CStr :=
  let st := args.foldl build_step
    { result := [], is_first := true, have_leading := false,
      single_element := none, last_trailing := none }
  match st.single_element with
  | some element => element
  | none => st.result ++ st.last_trailing.getD []

/-! ## `canonicalize_path` -/

/-- The `for` loop of `canonicalize_path` over the remaining elements `elts`.
`cpy` holds the slots `cpy[0] .. cpy[j-1]` of the C array, so `j` is its
length: `cpy[j++] = e` appends and `j--` drops the last slot. The result is
`none` at the `goto exit` with `toret = NULL`. -/
def canonicalize_loop : List CStr → List CStr → Option (List CStr)
  | [], cpy => some cpy
  | e :: elts, cpy =>
    if e = ['.', '.'] then
      if cpy.length > 0 then canonicalize_loop elts cpy.dropLast
      else none
    else if e ≠ ['.'] ∧ e ≠ [] then canonicalize_loop elts (cpy ++ [e])
    else canonicalize_loop elts cpy

/-- The function `canonicalize_path`: `error` when `g_assert (path[0] == '/')`
fails, `ok none` when it returns `NULL`, `ok (some p)` when it returns the
string `p`. -/
def canonicalize_path (path : CStr) : Except Abort (Option CStr) :=
  if path.head? = some '/' then
    match canonicalize_loop (g_strsplit path '/' 0) [['/']] with
    | none => .ok none
    | some cpy => .ok (some (g_build_filenamev cpy))
  else .error .assertion_failed

/-- The values of the write index `j` of `canonicalize_path` from the state in
which `elts` are the elements still to be read and `cpy` holds the slots
`cpy[0] .. cpy[j-1]`: the value of `j` at each test of the loop condition, the
last of them being the index of the store `cpy[j] = NULL` when the loop ends
by running out of elements. A store `cpy[j++] = elts[i]` goes to the value `j`
has at the test before it. -/
def canonicalize_indices : List CStr → List CStr → List Nat
  | [], cpy => [cpy.length]
  | e :: elts, cpy =>
    cpy.length ::
      (if e = ['.', '.'] then
        if cpy.length > 0 then canonicalize_indices elts cpy.dropLast
        else []
      else if e ≠ ['.'] ∧ e ≠ [] then canonicalize_indices elts (cpy ++ [e])
      else canonicalize_indices elts cpy)

/-! ## The identity cache -/

/-- A `CajaFileInfo *` handed over by the host; never `NULL`. -/
abbrev FileHandle := Nat

/-- A `GHashTable`, seen through `g_hash_table_lookup`: `none` is the `NULL`
returned for a key that is not in the table. -/
abbrev GHashTable (κ ν : Type) := κ → Option ν

/-- GLib `g_hash_table_new_full`: the empty table. -/
def g_hash_table_new_full {κ ν : Type} : GHashTable κ ν := fun _ => none

/-- GLib `g_hash_table_lookup`. -/
def g_hash_table_lookup {κ ν : Type} (t : GHashTable κ ν) (key : κ) : Option ν := t key

/-- GLib `g_hash_table_insert`: the key now maps to the value. -/
def g_hash_table_insert {κ ν : Type} [DecidableEq κ] (t : GHashTable κ ν) (key : κ)
    (value : ν) : GHashTable κ ν :=
  fun k => if k = key then some value else t k

/-- GLib `g_hash_table_replace`: as `g_hash_table_insert`, up to which copy of
the key is kept. -/
def g_hash_table_replace {κ ν : Type} [DecidableEq κ] (t : GHashTable κ ν) (key : κ)
    (value : ν) : GHashTable κ ν :=
  fun k => if k = key then some value else t k

/-- GLib `g_hash_table_remove`: the key is no longer in the table. -/
def g_hash_table_remove {κ ν : Type} [DecidableEq κ] (t : GHashTable κ ν) (key : κ) :
    GHashTable κ ν :=
  fun k => if k = key then none else t k

/-- The two hash tables of the `CajaDropbox` object. -/
structure CajaDropbox where
  obj2filename : GHashTable FileHandle CStr
  filename2obj : GHashTable CStr FileHandle

/-- The tables as `caja_dropbox_instance_init` creates them. -/
def caja_dropbox_instance_init : CajaDropbox :=
  { obj2filename := g_hash_table_new_full, filename2obj := g_hash_table_new_full }

/-- The function `when_file_dies`. -/
def when_file_dies (cvs : CajaDropbox) (address : FileHandle) : CajaDropbox :=
  match g_hash_table_lookup cvs.obj2filename address with
  | none => cvs
  | some filename =>
    { filename2obj := g_hash_table_remove cvs.filename2obj filename
      obj2filename := g_hash_table_remove cvs.obj2filename address }

/-- The function `changed_cb`. `pfilename` is what `g_filename_from_uri` gives
for the URI the host reports for `file` at the time of the call (`none` when
the URI has no local path). -/
def changed_cb (file : FileHandle) (pfilename : Option CStr) (cvs : CajaDropbox) :
    Except Abort CajaDropbox :=
  let canon : Except Abort (Option CStr) :=
    match pfilename with
    | some pf => canonicalize_path pf
    | none => .ok none
  match canon with
  | .error e => .error e
  | .ok filename =>
    if (pfilename = none ∧ filename = none) ∨ (pfilename ≠ none ∧ filename ≠ none) then
      match g_hash_table_lookup cvs.obj2filename file with
      | none => .ok cvs
      | some filename2 =>
        match filename with
        | none =>
          .ok { filename2obj := g_hash_table_remove cvs.filename2obj filename2
                obj2filename := g_hash_table_remove cvs.obj2filename file }
        | some filename =>
          if filename ≠ filename2 then
            let f2o := g_hash_table_remove cvs.filename2obj filename2
            let o2f := g_hash_table_replace cvs.obj2filename file filename
            match g_hash_table_lookup f2o filename with
            | some f2 =>
              .ok { filename2obj :=
                      g_hash_table_insert (g_hash_table_remove f2o filename) filename file
                    obj2filename := g_hash_table_remove o2f f2 }
            | none =>
              .ok { filename2obj := g_hash_table_insert f2o filename file
                    obj2filename := o2f }
          else .ok cvs
    else .error .assertion_failed

/-- Lines 219 to 259 of `caja_dropbox_update_file_info`: the update of the
two-way hash once `filename`, the canonical path of `file`, is known. Inside
the outer `if`, a stored name is one that differs from `filename` (`cmp != 0`),
so the two inner branches are told apart by `stored_filename` alone.

In the branch of a stored name, `stored_filename` points to the value kept in
`obj2filename`, whose value destroy function is `g_free` (lines 821 to 823).
The removal at line 230 frees that string, so the removal at line 231 is
handed a dangling key and does not find the old path: the old path stays in
`filename2obj`. (`changed_cb` makes the two removals in the other order, and
says why at line 168.) -/
def update_file_info_hashes (cvs : CajaDropbox) (file : FileHandle) (filename : CStr) :
    CajaDropbox :=
  let stored_filename := g_hash_table_lookup cvs.obj2filename file
  if (stored_filename ≠ none ∧ stored_filename ≠ some filename) ∨ stored_filename = none then
    let cvs1 : CajaDropbox :=
      match stored_filename with
      | some _ =>
        { obj2filename := g_hash_table_remove cvs.obj2filename file
          filename2obj := cvs.filename2obj }
      | none =>
        match g_hash_table_lookup cvs.filename2obj filename with
        | some f2 =>
          { filename2obj := g_hash_table_remove cvs.filename2obj filename
            obj2filename := g_hash_table_remove cvs.obj2filename f2 }
        | none => cvs
    { filename2obj := g_hash_table_insert cvs1.filename2obj filename file
      obj2filename := g_hash_table_insert cvs1.obj2filename file filename }
  else cvs

/-- The values of `CajaOperationResult`. -/
inductive CajaOperationResult where
  | CAJA_OPERATION_COMPLETE
  | CAJA_OPERATION_FAILED
  | CAJA_OPERATION_IN_PROGRESS
  deriving DecidableEq, Repr

/-- What a call of `caja_dropbox_update_file_info` leaves behind: the value
returned, the tables, and the file of the `DropboxFileInfoCommand` passed to
`dropbox_command_client_request`, if one was queued. -/
structure UpdateOutcome where
  result : CajaOperationResult
  cvs : CajaDropbox
  request : Option FileHandle

/-- The function `caja_dropbox_update_file_info`. `pfilename` is what
`g_filename_from_uri` gives for the URI of `file`; `is_connected` and
`is_gone` are the answers of `dropbox_client_is_connected` and
`caja_file_info_is_gone`; `workaround` is the global
`dropbox_use_operation_in_progress_workaround`. -/
def caja_dropbox_update_file_info (cvs : CajaDropbox) (file : FileHandle)
    (pfilename : Option CStr) (is_connected is_gone workaround : Bool) :
    Except Abort UpdateOutcome :=
  match pfilename with
  | none => .ok { result := .CAJA_OPERATION_COMPLETE, cvs := cvs, request := none }
  | some pf =>
    match canonicalize_path pf with
    | .error e => .error e
    | .ok none => .ok { result := .CAJA_OPERATION_FAILED, cvs := cvs, request := none }
    | .ok (some filename) =>
      let cvs1 := update_file_info_hashes cvs file filename
      if is_connected = false ∨ is_gone = true then
        .ok { result := .CAJA_OPERATION_COMPLETE, cvs := cvs1, request := none }
      else
        .ok { result :=
                if workaround then .CAJA_OPERATION_COMPLETE
                else .CAJA_OPERATION_IN_PROGRESS
              cvs := cvs1
              request := some file }

/-- The function `handle_shell_touch`. `args_path` is the string vector stored
under `"path"` in `args`; the result is the file `reset_file` is called on,
if any. -/
def handle_shell_touch (args_path : Option (List CStr)) (cvs : CajaDropbox) :
    Except Abort (Option FileHandle) :=
  match args_path with
  | none => .ok none
  | some [] => .error .null_dereference
  | some (path0 :: _) =>
    if path0.head? = some '/' then
      match canonicalize_path path0 with
      | .error e => .error e
      | .ok none => .ok none
      | .ok (some filename) => .ok (g_hash_table_lookup cvs.filename2obj filename)
    else .ok none

/-- A call the host makes into the identity cache. -/
inductive HostCall where
  | update_file_info (file : FileHandle) (pfilename : Option CStr)
      (is_connected is_gone workaround : Bool)
  | changed (file : FileHandle) (pfilename : Option CStr)
  | file_dies (address : FileHandle)

/-- The tables after one host call. -/
def HostCall.apply (cvs : CajaDropbox) : HostCall → Except Abort CajaDropbox
  | .update_file_info file pfilename c g w =>
    match caja_dropbox_update_file_info cvs file pfilename c g w with
    | .ok out => .ok out.cvs
    | .error e => .error e
  | .changed file pfilename => changed_cb file pfilename cvs
  | .file_dies address => .ok (when_file_dies cvs address)

/-- The tables after a sequence of host calls, made in list order. -/
def run_calls : CajaDropbox → List HostCall → Except Abort CajaDropbox
  | cvs, [] => .ok cvs
  | cvs, c :: cs =>
    match c.apply cvs with
    | .ok cvs1 => run_calls cvs1 cs
    | .error e => .error e

/-- The two tables are mutual inverses. -/
def Bijection (cvs : CajaDropbox) : Prop :=
  ∀ (h : FileHandle) (p : CStr), cvs.obj2filename h = some p ↔ cvs.filename2obj p = some h

/-! ## Status queries: `caja_dropbox_finish_file_info_command` -/

/-- The fields of a `DropboxFileInfoCommand` that decide what
`caja_dropbox_finish_file_info_command` does: the `cancelled` flag and the
`file` the query is about. The `provider` and `update_complete` fields are host
objects that are only handed back to the host. -/
structure DropboxFileInfoCommand where
  cancelled : Bool
  file : FileHandle
  deriving DecidableEq, Repr

/-- A `DropboxFileInfoCommandResponse`: the command and the three responses of
the daemon, each `NULL` or a hash table from field names to string vectors. -/
structure DropboxFileInfoCommandResponse where
  dfic : DropboxFileInfoCommand
  file_status_response : Option (GHashTable CStr (List CStr))
  folder_tag_response : Option (GHashTable CStr (List CStr))
  emblems_response : Option (GHashTable CStr (List CStr))

/-- The function `caja_dropbox_cancel_update`. -/
def caja_dropbox_cancel_update (dfic : DropboxFileInfoCommand) : DropboxFileInfoCommand :=
  { dfic with cancelled := true }

/-- The array `emblems`. -/
def emblems : List CStr :=
  ["dropbox-uptodate".toList, "dropbox-syncing".toList, "dropbox-unsyncable".toList]

/-- Lines 342 to 350: the emblem added for the folder tag `tag0`, if any. -/
def tag_emblem (tag0 : CStr) : Option CStr :=
  if tag0 = "public".toList then some "web".toList
  else if tag0 = "shared".toList then some "people".toList
  else if tag0 = "photos".toList then some "photos".toList
  else if tag0 = "sandbox".toList then some "star".toList
  else none

/-- Lines 355 to 363: the value of `emblem_code` for the status `status0`. -/
def emblem_code (status0 : CStr) : Nat :=
  if status0 = "up to date".toList then 1
  else if status0 = "syncing".toList then 2
  else if status0 = "unsyncable".toList then 3
  else 0

/-- Lines 365 to 367: the emblem added for the status `status0`, if any. -/
def status_emblem (status0 : CStr) : Option CStr :=
  if emblem_code status0 > 0 then emblems.get? (emblem_code status0 - 1) else none

/-- What a call of `caja_dropbox_finish_file_info_command` does to the host:
`added` lists the emblems passed to `caja_file_info_add_emblem`, in call order;
`result` is the local variable `result` when line 373 is reached;
`update_complete` is the result handed to
`caja_info_provider_update_complete_invoke`, or `none` when it is not called.
The function itself always returns `FALSE`. -/
structure FinishOutcome where
  added : List CStr
  result : CajaOperationResult
  update_complete : Option CajaOperationResult
  deriving DecidableEq, Repr

/-- Lines 312 to 371 of `caja_dropbox_finish_file_info_command`: the emblems
added and the value of `result`. `isdir` is the answer of
`caja_file_info_is_directory`. Reading `tag[0]` or `status[0]` of an empty
vector passes `NULL` to `strcmp`. -/
def finish_emblems (dficr : DropboxFileInfoCommandResponse) (isdir : Bool) :
    Except Abort (List CStr × CajaOperationResult) :=
  if dficr.dfic.cancelled = false then
    match dficr.emblems_response.bind (fun t => g_hash_table_lookup t "emblems".toList) with
    | some status =>
      .ok (status.filter (fun e => e ≠ []), .CAJA_OPERATION_COMPLETE)
    | none =>
      match dficr.file_status_response.bind (fun t => g_hash_table_lookup t "status".toList) with
      | some status =>
        if (isdir = true ∧ dficr.folder_tag_response.isSome = true) ∨ isdir = false then
          let tag : Option (List CStr) :=
            if isdir = true then
              dficr.folder_tag_response.bind (fun t => g_hash_table_lookup t "tag".toList)
            else none
          let tagged : Except Abort (List CStr) :=
            match tag with
            | none => .ok []
            | some [] => .error .null_dereference
            | some (tag0 :: _) => .ok (tag_emblem tag0).toList
          match tagged with
          | .error e => .error e
          | .ok tag_added =>
            match status with
            | [] => .error .null_dereference
            | status0 :: _ =>
              .ok (tag_added ++ (status_emblem status0).toList, .CAJA_OPERATION_COMPLETE)
        else .ok ([], .CAJA_OPERATION_FAILED)
      | none => .ok ([], .CAJA_OPERATION_FAILED)
  else .ok ([], .CAJA_OPERATION_FAILED)

/-- The function `caja_dropbox_finish_file_info_command`. `workaround` is the
global `dropbox_use_operation_in_progress_workaround`. -/
def caja_dropbox_finish_file_info_command (dficr : DropboxFileInfoCommandResponse)
    (isdir workaround : Bool) : Except Abort FinishOutcome :=
  match finish_emblems dficr isdir with
  | .error e => .error e
  | .ok (added, result) =>
    .ok { added := added
          result := result
          update_complete := if workaround = false then some result else none }

/-! ## The menu protocol: `GhettoURLDecode` and `caja_dropbox_parse_menu` -/

/-- GLib `g_ascii_isxdigit`. -/
def g_ascii_isxdigit (c : Char) : Bool :=
  ('0' ≤ c ∧ c ≤ '9') ∨ ('a' ≤ c ∧ c ≤ 'f') ∨ ('A' ≤ c ∧ c ≤ 'F')

/-- The macro `XDIGIT`, on character codes. -/
def XDIGIT (c : Char) : Nat :=
  if c.toNat ≤ '9'.toNat then c.toNat - '0'.toNat
  else (c.toNat &&& 0x4F) - 'A'.toNat + 10

/-- The macro `HEXCHAR`, applied to the two characters after a `%`; the value
is stored into a `char`, so only its low eight bits are kept. -/
def HEXCHAR (s1 s2 : Char) : Char :=
  Char.ofNat (((XDIGIT s1 <<< 4) + XDIGIT s2) % 256)

/-- What a call of `GhettoURLDecode` leaves behind: the value returned, the
characters stored to `out[0]`, `out[1]`, ... by the loop, and whether the
terminator was stored after them. -/
structure DecodeOutcome where
  ret : Int
  written : CStr
  terminated : Bool
  deriving DecidableEq, Repr

/-- The function `GhettoURLDecode (out, in, n)`, from the state in which the
loop has stored `written` and `input` is what `in` points to. The number of
characters stored so far is `out - out_initial`. -/
def GhettoURLDecode_from (n : Int) : CStr → CStr → DecodeOutcome
  | [], written =>
    if (written.length : Int) < n then
      { ret := written.length, written := written, terminated := true }
    else { ret := -1, written := written, terminated := false }
  | c :: rest, written =>
    if (written.length : Int) < n then
      if c = '%' then
        match rest with
        | s1 :: s2 :: rest2 =>
          if g_ascii_isxdigit s1 = true ∧ g_ascii_isxdigit s2 = true then
            GhettoURLDecode_from n rest2 (written ++ [HEXCHAR s1 s2])
          else { ret := -1, written := written, terminated := false }
        | _ => { ret := -1, written := written, terminated := false }
      else GhettoURLDecode_from n rest (written ++ [c])
    else { ret := -1, written := written, terminated := false }

/-- The function `GhettoURLDecode (out, in, n)` with `in` the string `input`. -/
def GhettoURLDecode (input : CStr) (n : Int) : DecodeOutcome :=
  GhettoURLDecode_from n input []

/-- The C string found in the buffer `s` after the in-place call
`GhettoURLDecode (s, s, strlen (s))` of `caja_dropbox_parse_menu`: the stored
characters, followed by the terminator if it was stored and by the untouched
rest of `s` otherwise, read up to the first `NUL`. -/
def decode_in_place (s : CStr) : CStr :=
  let r := GhettoURLDecode s s.length
  let buffer := if r.terminated then r.written else r.written ++ s.drop r.written.length
  buffer.takeWhile (fun c => c ≠ Char.ofNat 0)

/-- A `CajaMenuItem` as `caja_dropbox_parse_menu` builds it: an action item
made by `caja_menu_item_new (name, label, tip, NULL)` with the data
`caja_dropbox_verb` and the property `sensitive`, or an item with a submenu. -/
inductive CajaMenuItem where
  | action (name label tip verb : CStr) (sensitive : Bool)
  | submenu (name label tip : CStr) (items : List CajaMenuItem)
  deriving Repr

/-- What a call of `caja_dropbox_parse_menu` does: the items appended to `menu`,
in order, and the value returned. -/
structure ParseOutcome where
  items : List CajaMenuItem
  ret : Int
  deriving Repr

/-- One iteration of the `for` loop of `caja_dropbox_parse_menu`, for the
entry `option`; `recurse` stands for the recursive call. -/
def parse_menu_option (recurse : List CStr → CStr → Option ParseOutcome)
    (old_action_string : CStr) (option : CStr) : Option ParseOutcome :=
  match g_strsplit option '~' 3 with
  | [name, inner, verb0] =>
    let item_name := decode_in_place name
    let verb := decode_in_place verb0
    let item_inner := decode_in_place inner
    if '~' ∈ item_inner then
      let new_action_string := old_action_string ++ item_name ++ "::".toList
      match recurse (g_strsplit item_inner '|' (-1)) new_action_string with
      | none => none
      | some sub =>
        some { items := [.submenu new_action_string item_name [] sub.items], ret := sub.ret }
    else
      let new_action_string := old_action_string ++ verb
      let grayed_out : Bool := item_name.head? = some '!'
      let label := if grayed_out then item_name.tail else item_name
      some { items := [.action new_action_string label item_inner verb (!grayed_out)]
             ret := 1 }
  | _ => some { items := [], ret := 0 }

/-- The `for` loop of `caja_dropbox_parse_menu` over the entries `options`. -/
def parse_menu_loop (recurse : List CStr → CStr → Option ParseOutcome)
    (old_action_string : CStr) : List CStr → Option ParseOutcome
  | [] => some { items := [], ret := 0 }
  | option :: rest =>
    match parse_menu_option recurse old_action_string option with
    | none => none
    | some first =>
      match parse_menu_loop recurse old_action_string rest with
      | none => none
      | some others =>
        some { items := first.items ++ others.items, ret := first.ret + others.ret }

/-- The function `caja_dropbox_parse_menu` with the nesting of calls limited
to `depth`; `none` when a call beyond that depth would be made. -/
def parse_menu_depth : Nat → List CStr → CStr → Option ParseOutcome
  | 0 => fun _ _ => none
  | depth + 1 => fun options old_action_string =>
    parse_menu_loop (parse_menu_depth depth) old_action_string options

/-- Length of the longest string of a vector. -/
def longest (options : List CStr) : Nat :=
  options.foldr (fun o m => max o.length m) 0

/-- The function `caja_dropbox_parse_menu (options, menu, old_action_string,
...)`. Each nested call is made on pieces of an entry of the calling level that
are shorter than that entry, so the length of the longest entry bounds the
nesting. -/
def caja_dropbox_parse_menu (options : List CStr) (old_action_string : CStr) :
    Option ParseOutcome :=
  parse_menu_depth (longest options + 1) options old_action_string

mutual
/-- Number of action items in one item: the item itself, or the action items
of its submenu at all nesting depths. -/
def leaf_count_item : CajaMenuItem → Nat
  | .action _ _ _ _ _ => 1
  | .submenu _ _ _ items => leaf_count items
termination_by structural item => item
/-- Number of action items of a menu, at all nesting depths. -/
def leaf_count : List CajaMenuItem → Nat
  | [] => 0
  | item :: rest => leaf_count_item item + leaf_count rest
termination_by structural items => items
end

/-- An action item `leaf` lies in the menu `items` below the nested submenus
whose labels are `labels`, listed from the outermost one. -/
inductive Reaches : List CajaMenuItem → List CStr → CajaMenuItem → Prop where
  | here (items : List CajaMenuItem) (name label tip verb : CStr) (sensitive : Bool) :
      CajaMenuItem.action name label tip verb sensitive ∈ items →
      Reaches items [] (CajaMenuItem.action name label tip verb sensitive)
  | down (items sub : List CajaMenuItem) (name label tip : CStr) (labels : List CStr)
      (leaf : CajaMenuItem) :
      CajaMenuItem.submenu name label tip sub ∈ items →
      Reaches sub labels leaf → Reaches items (label :: labels) leaf

/-- The action string `caja_dropbox_get_file_items` starts the parse with. -/
def root_action_string : CStr := "CajaDropbox::".toList

/-! ## The reference scan of the spec, for comparison with `canonicalize_path` -/

/-- Reference scan, in the words of the spec: the segments are scanned left to
right with the list `kept` of retained segments; empty and `.` segments are
dropped, `..` pops the last retained segment, and there is no result when a
`..` is met with no segment left to pop. -/
def reference_scan : List CStr → List CStr → Option (List CStr)
  | [], kept => some kept
  | s :: rest, kept =>
    if s = [] ∨ s = ['.'] then reference_scan rest kept
    else if s = ['.', '.'] then
      if kept = [] then none else reference_scan rest kept.dropLast
    else reference_scan rest (kept ++ [s])

/-- A retained segment: not empty, free of `/`, neither `.` nor `..`. -/
def IsSegment (t : CStr) : Prop :=
  t ≠ [] ∧ '/' ∉ t ∧ t ≠ ['.'] ∧ t ≠ ['.', '.']

/-! ## The reference decoding of the spec, for comparison with `GhettoURLDecode` -/

/-- A hexadecimal digit, upper or lower case. -/
def is_hex_digit (c : Char) : Bool :=
  ('0' ≤ c ∧ c ≤ '9') ∨ ('a' ≤ c ∧ c ≤ 'f') ∨ ('A' ≤ c ∧ c ≤ 'F')

/-- The value of a hexadecimal digit. -/
def hex_value (c : Char) : Nat :=
  if '0' ≤ c ∧ c ≤ '9' then c.toNat - '0'.toNat
  else if 'a' ≤ c ∧ c ≤ 'f' then c.toNat - 'a'.toNat + 10
  else if 'A' ≤ c ∧ c ≤ 'F' then c.toNat - 'A'.toNat + 10
  else 0

/-- Every `%` of the string is followed by two hexadecimal digits. -/
def well_escaped : CStr → Bool
  | [] => true
  | c :: rest =>
    if c = '%' then
      match rest with
      | x :: y :: rest2 => is_hex_digit x && is_hex_digit y && well_escaped rest2
      | _ => false
    else well_escaped rest

/-- Some escape of the string is `%00`. -/
def has_nul_escape : CStr → Bool
  | [] => false
  | c :: rest =>
    if c = '%' then
      match rest with
      | x :: y :: rest2 => (x = '0' ∧ y = '0') || has_nul_escape rest2
      | _ => false
    else has_nul_escape rest

/-- The reference decoding, in the words of the spec: each `%XY` with two
hexadecimal digits is replaced by the single character with the code
`16 * value X + value Y`, and every other character is kept. -/
def reference_decode : CStr → CStr
  | [] => []
  | c :: rest =>
    let kept := c :: reference_decode rest
    if c = '%' then
      match rest with
      | x :: y :: rest2 =>
        if is_hex_digit x = true ∧ is_hex_digit y = true then
          Char.ofNat (16 * hex_value x + hex_value y) :: reference_decode rest2
        else kept
      | _ => kept
    else kept

/-! ## Concrete caches and call sequences used by the examples -/

/-- The cache after the host showed handle `1` at `/home/u/a.txt`. -/
def cache_H1 : CajaDropbox :=
  update_file_info_hashes caja_dropbox_instance_init 1 "/home/u/a.txt".toList

/-- The cache after the host showed handle `2` at `/q` and handle `1` at `/p`. -/
def cache_two_files : CajaDropbox :=
  update_file_info_hashes
    (update_file_info_hashes caja_dropbox_instance_init 2 "/q".toList) 1 "/p".toList

/-- Handle `2` is shown at `/q`, handle `1` at `/p`, and then handle `1` is
shown again, now at `/q`, without a change notification in between. -/
def rename_onto_claimed_path : List HostCall :=
  [ .update_file_info 2 (some "/q".toList) true false false,
    .update_file_info 1 (some "/p".toList) true false false,
    .update_file_info 1 (some "/q".toList) true false false ]

/-! ## Concrete replies and menu entries used by the examples -/

/-- A daemon response with the single field `key`. -/
def response_with (key : CStr) (values : List CStr) : GHashTable CStr (List CStr) :=
  g_hash_table_insert g_hash_table_new_full key values

/-- The reply `status: up to date` to a query that was not cancelled, without
tag and emblems responses. -/
def reply_up_to_date : DropboxFileInfoCommandResponse :=
  { dfic := { cancelled := false, file := 1 }
    file_status_response := some (response_with "status".toList ["up to date".toList])
    folder_tag_response := none
    emblems_response := none }

/-- The reply `status: syncing` with the tag response absent. -/
def reply_syncing_no_tag : DropboxFileInfoCommandResponse :=
  { dfic := { cancelled := false, file := 1 }
    file_status_response := some (response_with "status".toList ["syncing".toList])
    folder_tag_response := none
    emblems_response := none }

/-- The reply `status: syncing`, `tag: shared`. -/
def reply_syncing_shared : DropboxFileInfoCommandResponse :=
  { dfic := { cancelled := false, file := 1 }
    file_status_response := some (response_with "status".toList ["syncing".toList])
    folder_tag_response := some (response_with "tag".toList ["shared".toList])
    emblems_response := none }

/-- A reply with all three responses, the emblems response holding an empty
entry between two names. -/
def reply_with_emblems : DropboxFileInfoCommandResponse :=
  { dfic := { cancelled := false, file := 1 }
    file_status_response := some (response_with "status".toList ["syncing".toList])
    folder_tag_response := some (response_with "tag".toList ["shared".toList])
    emblems_response :=
      some (response_with "emblems".toList ["x".toList, [], "y".toList]) }

/-- The reply `reply_with_emblems` to a query that was cancelled meanwhile. -/
def reply_cancelled : DropboxFileInfoCommandResponse :=
  { reply_with_emblems with dfic := caja_dropbox_cancel_update reply_with_emblems.dfic }

/-- A menu entry whose decoded payload is `Edit~e~edit|View~v~view`. -/
def entry_open : CStr := "Open~Edit%7Ee%7Eedit|View%7Ev%7Eview~open".toList

/-- A menu entry with three `~`. -/
def entry_four_fields : CStr := "a~b~c~d".toList

/-- A menu entry with a grayed-out label. -/
def entry_gray : CStr := "!Pause%20sync~Not%20available~pause".toList

/-! ## Supporting lemmas: which calls keep the tables mutual inverses -/

theorem bijection_init : Bijection caja_dropbox_instance_init := by
  intro h p
  simp [caja_dropbox_instance_init, g_hash_table_new_full]

theorem bijection_when_file_dies (cvs : CajaDropbox) (address : FileHandle)
    (hb : Bijection cvs) : Bijection (when_file_dies cvs address) := by
  intro h p
  unfold when_file_dies g_hash_table_lookup
  cases hl : cvs.obj2filename address with
  | none => exact hb h p
  | some filename =>
    have hinv := (hb address filename).1 hl
    have hbhp := hb h p
    have h1 := hb address p
    have h2 := hb h filename
    by_cases hh : h = address <;> by_cases hp : p = filename <;>
      simp_all [g_hash_table_remove] <;> aesop

theorem bijection_changed_cb (cvs cvs1 : CajaDropbox) (file : FileHandle)
    (pfilename : Option CStr) (hb : Bijection cvs)
    (hrun : changed_cb file pfilename cvs = .ok cvs1) : Bijection cvs1 := by
  unfold changed_cb at hrun
  simp only at hrun
  split at hrun
  · cases hrun
  · rename_i filename hcanon
    split at hrun
    · rename_i hassert
      unfold g_hash_table_lookup at hrun
      split at hrun
      · cases hrun; exact hb
      · rename_i filename2 hl
        split at hrun
        · cases hrun
          intro h p
          have hinv := (hb file filename2).1 hl
          have hbhp := hb h p
          have h1 := hb file p
          have h2 := hb h filename2
          by_cases hh : h = file <;> by_cases hp : p = filename2 <;>
            simp_all [g_hash_table_remove] <;> aesop
        · rename_i fn
          split at hrun
          · rename_i hne
            split at hrun
            · rename_i f2 hf2
              cases hrun
              intro h p
              simp only [g_hash_table_remove, g_hash_table_insert, g_hash_table_replace]
                at hf2 ⊢
              have hinv := (hb file filename2).1 hl
              have hbhp := hb h p
              have h1 := hb file p
              have h2 := hb h filename2
              have h3 := hb h fn
              have h4 := hb f2 fn
              have h5 := hb f2 p
              have h6 := hb file fn
              by_cases hh : h = file <;> by_cases hp : p = filename2 <;>
                by_cases hh2 : h = f2 <;> by_cases hp2 : p = fn <;>
                simp_all <;> aesop
            · rename_i hf2
              cases hrun
              intro h p
              simp only [g_hash_table_remove, g_hash_table_insert, g_hash_table_replace]
                at hf2 ⊢
              have hinv := (hb file filename2).1 hl
              have hbhp := hb h p
              have h1 := hb file p
              have h2 := hb h filename2
              have h3 := hb h fn
              have h6 := hb file fn
              by_cases hh : h = file <;> by_cases hp : p = filename2 <;>
                by_cases hp2 : p = fn <;>
                simp_all <;> aesop
          · cases hrun; exact hb
    · cases hrun

/-- The table update of `caja_dropbox_update_file_info` keeps the tables mutual
inverses when the file is not tracked yet or shows up under its stored name.
(When a tracked file shows up under another name it does not: see
`update_file_info_hashes_rename`.) -/
theorem bijection_update_file_info_hashes (cvs : CajaDropbox) (file : FileHandle)
    (filename : CStr) (hb : Bijection cvs)
    (hok : cvs.obj2filename file = none ∨ cvs.obj2filename file = some filename) :
    Bijection (update_file_info_hashes cvs file filename) := by
  intro h p
  unfold update_file_info_hashes g_hash_table_lookup
  simp only
  have h6 := hb file filename
  have hbhp := hb h p
  have h1 := hb file p
  have h3 := hb h filename
  cases hl : cvs.obj2filename file with
  | none =>
    cases hf2 : cvs.filename2obj filename with
    | none =>
      by_cases hh : h = file <;> by_cases hp : p = filename <;>
        simp_all [g_hash_table_remove, g_hash_table_insert] <;> aesop
    | some f2 =>
      have h4 := hb f2 filename
      have h5 := hb f2 p
      by_cases hh : h = file <;> by_cases hp : p = filename <;> by_cases hh2 : h = f2 <;>
        simp_all [g_hash_table_remove, g_hash_table_insert] <;> aesop
  | some stored =>
    have h2 := hb h stored
    have h7 := hb file stored
    by_cases hs : stored = filename
    · simp_all
    · rcases hok with hok | hok
      · simp_all
      · simp_all

/-- The table update of `caja_dropbox_update_file_info` for a file tracked under
`stored` that shows up under another name `filename`: the file and the new name
are mapped to each other, and nothing else changes. In particular the old name
stays a key of `filename2obj`, and a handle that held the new name stays a key
of `obj2filename`. -/
theorem update_file_info_hashes_rename (cvs : CajaDropbox) (file : FileHandle)
    (stored filename : CStr) (hs : cvs.obj2filename file = some stored)
    (hne : stored ≠ filename) :
    (update_file_info_hashes cvs file filename).obj2filename file = some filename ∧
    (update_file_info_hashes cvs file filename).filename2obj filename = some file ∧
    (∀ k, k ≠ file →
      (update_file_info_hashes cvs file filename).obj2filename k = cvs.obj2filename k) ∧
    (∀ k, k ≠ filename →
      (update_file_info_hashes cvs file filename).filename2obj k = cvs.filename2obj k) := by
  have hne2 : ¬ (some stored : Option CStr) = some filename := fun e => hne (Option.some.inj e)
  unfold update_file_info_hashes g_hash_table_lookup
  simp only [hs, ne_eq, hne2, not_false_eq_true, and_true, reduceCtorEq, or_false, if_true]
  refine ⟨by simp [g_hash_table_insert], by simp [g_hash_table_insert], ?_, ?_⟩
  · intro k hk
    simp [g_hash_table_insert, g_hash_table_remove, hk]
  · intro k hk
    simp [g_hash_table_insert, hk]

theorem bijection_cache_two_files : Bijection cache_two_files :=
  bijection_update_file_info_hashes _ _ _
    (bijection_update_file_info_hashes _ _ _ bijection_init (Or.inl rfl))
    (Or.inl (by decide))

/-! ## Supporting lemmas: `canonicalize_path` against the reference scan -/

theorem split_all_ne_nil (d : Char) (s : CStr) : split_all d s ≠ [] := by
  cases s with
  | nil => simp [split_all]
  | cons c cs =>
    unfold split_all
    split
    · simp
    · split <;> simp

theorem split_all_no_delimiter (d : Char) (s : CStr) :
    ∀ t ∈ split_all d s, d ∉ t := by
  induction s with
  | nil => simp [split_all]
  | cons c cs ih =>
    unfold split_all
    split
    · intro t ht
      rcases List.mem_cons.1 ht with h | h
      · simp [h]
      · exact ih t h
    · rename_i hcd
      split
      · intro t ht
        simp at ht
        subst ht
        simp; exact fun e => hcd e.symm
      · rename_i t ts heq
        intro u hu
        rcases List.mem_cons.1 hu with h | h
        · subst h
          have := ih t (by rw [heq]; simp)
          simp; exact ⟨fun e => hcd e.symm, this⟩
        · exact ih u (by rw [heq]; simp [h])

theorem split_all_of_no_delimiter (d : Char) (t : CStr) (h : d ∉ t) :
    split_all d t = [t] := by
  induction t with
  | nil => rfl
  | cons c cs ih =>
    simp at h
    rw [split_all, if_neg (fun e => h.1 e.symm), ih h.2]

theorem split_all_append (d : Char) (t rest : CStr) (h : d ∉ t) :
    split_all d (t ++ d :: rest) = t :: split_all d rest := by
  induction t with
  | nil => simp [split_all]
  | cons c cs ih =>
    simp at h
    simp only [List.cons_append]
    rw [split_all, if_neg (fun e => h.1 e.symm), ih h.2]

theorem g_strsplit_absolute (rest : CStr) :
    g_strsplit ('/' :: rest) '/' 0 = [] :: split_all '/' rest := by
  simp [g_strsplit, split_all]

theorem canonicalize_loop_of_reference_scan (elts : List CStr) :
    ∀ (kept segs : List CStr), reference_scan elts kept = some segs →
      canonicalize_loop elts (['/'] :: kept) = some (['/'] :: segs) := by
  induction elts with
  | nil =>
    intro kept segs h
    simp [reference_scan] at h
    simp [canonicalize_loop, h]
  | cons e rest ih =>
    intro kept segs h
    unfold reference_scan at h
    unfold canonicalize_loop
    by_cases h1 : e = [] ∨ e = ['.']
    · rw [if_pos h1] at h
      have hne : e ≠ ['.', '.'] := by
        rcases h1 with h1 | h1 <;> simp [h1]
      have hskip : ¬ (e ≠ ['.'] ∧ e ≠ []) := by
        rcases h1 with h1 | h1 <;> simp [h1]
      rw [if_neg hne, if_neg hskip]
      exact ih kept segs h
    · rw [if_neg h1] at h
      by_cases h2 : e = ['.', '.']
      · rw [if_pos h2] at h
        rw [if_pos h2]
        by_cases hk : kept = []
        · rw [if_pos hk] at h; cases h
        · rw [if_neg hk] at h
          rw [if_pos (by simp), List.dropLast_cons_of_ne_nil hk]
          exact ih _ segs h
      · rw [if_neg h2] at h
        have hpush : e ≠ ['.'] ∧ e ≠ [] := by
          push_neg at h1
          exact ⟨h1.2, h1.1⟩
        rw [if_neg h2, if_pos hpush]
        exact ih _ segs h

theorem reference_scan_segments (elts : List CStr) :
    ∀ (kept segs : List CStr), (∀ t ∈ elts, '/' ∉ t) → (∀ t ∈ kept, IsSegment t) →
      reference_scan elts kept = some segs → ∀ t ∈ segs, IsSegment t := by
  induction elts with
  | nil =>
    intro kept segs _ hk h
    simp [reference_scan] at h
    subst h
    exact hk
  | cons e rest ih =>
    intro kept segs he hk h
    have hrest : ∀ t ∈ rest, '/' ∉ t := fun t ht => he t (List.mem_cons_of_mem _ ht)
    unfold reference_scan at h
    by_cases h1 : e = [] ∨ e = ['.']
    · rw [if_pos h1] at h
      exact ih kept segs hrest hk h
    · rw [if_neg h1] at h
      by_cases h2 : e = ['.', '.']
      · rw [if_pos h2] at h
        by_cases hkn : kept = []
        · rw [if_pos hkn] at h; cases h
        · rw [if_neg hkn] at h
          exact ih _ segs hrest (fun t ht => hk t (List.mem_of_mem_dropLast ht)) h
      · rw [if_neg h2] at h
        push_neg at h1
        refine ih _ segs hrest ?_ h
        intro t ht
        rcases List.mem_append.1 ht with ht | ht
        · exact hk t ht
        · simp at ht
          subst ht
          exact ⟨h1.1, he t (List.mem_cons_self _ _), h1.2, h2⟩

theorem reference_scan_of_segments (segs : List CStr) :
    ∀ kept : List CStr, (∀ t ∈ segs, IsSegment t) →
      reference_scan segs kept = some (kept ++ segs) := by
  induction segs with
  | nil => intro kept _; simp [reference_scan]
  | cons e rest ih =>
    intro kept h
    have he := h e (List.mem_cons_self _ _)
    unfold reference_scan
    rw [if_neg (by simp [he.1, he.2.2.1]), if_neg he.2.2.2,
      ih _ (fun t ht => h t (List.mem_cons_of_mem _ ht))]
    simp

theorem dropWhile_slash_of_segment (t : CStr) (h : '/' ∉ t) :
    t.dropWhile (fun c => decide (c = '/')) = t := by
  cases t with
  | nil => rfl
  | cons c cs =>
    simp at h
    rw [List.dropWhile_cons_of_neg]
    simp; exact fun e => h.1 e.symm

theorem rdropWhile_slash_of_segment (t : CStr) (h : '/' ∉ t) :
    t.rdropWhile (fun c => decide (c = '/')) = t := by
  rw [List.rdropWhile_eq_self_iff]
  intro hne
  have : t.getLast hne ∈ t := List.getLast_mem hne
  simp
  intro e
  rw [e] at this
  exact h this

theorem build_step_segment (st : BuildState) (t : CStr) (hl : st.have_leading = true)
    (hne : t ≠ []) (hs : '/' ∉ t) :
    build_step st t =
      { result := st.result ++ (if st.is_first then [] else ['/']) ++ t
        is_first := false
        have_leading := true
        single_element := none
        last_trailing := some [] } := by
  unfold build_step
  simp only [if_neg hne, dropWhile_slash_of_segment t hs, rdropWhile_slash_of_segment t hs,
    hl, List.drop_length]
  simp

theorem foldl_build_step_segments (segs : List CStr) :
    ∀ st : BuildState, st.have_leading = true → st.is_first = false →
      st.single_element = none → st.last_trailing = some [] →
      (∀ t ∈ segs, t ≠ [] ∧ '/' ∉ t) →
      segs.foldl build_step st =
        { st with result := st.result ++ (segs.map (fun t => '/' :: t)).flatten } := by
  induction segs with
  | nil => intro st _ _ _ _ _; simp
  | cons t ts ih =>
    intro st hl hf hsingle htrail h
    have ht := h t (List.mem_cons_self _ _)
    rw [List.foldl_cons, build_step_segment st t hl ht.1 ht.2,
      ih _ rfl rfl rfl rfl (fun u hu => h u (List.mem_cons_of_mem _ hu))]
    cases st
    simp at hl hf hsingle htrail
    simp [hl, hf, hsingle, htrail]

theorem intercalate_cons_segments (t : CStr) (ts : List CStr) :
    ['/'].intercalate (t :: ts) = t ++ (ts.map (fun u => '/' :: u)).flatten := by
  induction ts generalizing t with
  | nil => simp [List.intercalate]
  | cons u us ih =>
    have := ih u
    simp only [List.intercalate, List.intersperse, List.flatten_cons, List.map_cons] at this ⊢
    rw [this]
    simp

theorem g_build_filenamev_root (segs : List CStr) (h : ∀ t ∈ segs, t ≠ [] ∧ '/' ∉ t) :
    g_build_filenamev (['/'] :: segs) = '/' :: ['/'].intercalate segs := by
  have hroot : build_step
      { result := [], is_first := true, have_leading := false,
        single_element := none, last_trailing := none } ['/'] =
      { result := ['/'], is_first := true, have_leading := true,
        single_element := some ['/'], last_trailing := some ['/'] } := by
    decide
  unfold g_build_filenamev
  simp only [List.foldl_cons, hroot]
  cases segs with
  | nil => simp [List.intercalate]
  | cons t ts =>
    have ht := h t (List.mem_cons_self _ _)
    rw [List.foldl_cons, build_step_segment _ t rfl ht.1 ht.2,
      foldl_build_step_segments ts _ rfl rfl rfl rfl
        (fun u hu => h u (List.mem_cons_of_mem _ hu)),
      intercalate_cons_segments]
    simp

theorem split_all_intercalate (t : CStr) (ts : List CStr)
    (h : ∀ u ∈ t :: ts, '/' ∉ u) :
    split_all '/' (['/'].intercalate (t :: ts)) = t :: ts := by
  induction ts generalizing t with
  | nil =>
    simp [List.intercalate]
    exact split_all_of_no_delimiter _ _ (h t (List.mem_cons_self _ _))
  | cons u us ih =>
    have hu := ih u (fun v hv => h v (List.mem_cons_of_mem _ hv))
    rw [intercalate_cons_segments] at hu ⊢
    simp only [List.map_cons, List.flatten_cons, List.cons_append]
    rw [split_all_append _ _ _ (h t (List.mem_cons_self _ _)), hu]

/-- Where no `..` of an absolute path finds the list of retained segments
empty, `canonicalize_path` returns what the reference scan describes: `/`
followed by the retained segments joined with `/`, each of them not empty,
free of `/` and neither `.` nor `..`. -/
theorem canonicalize_path_of_reference_scan (path : CStr) (segs : List CStr)
    (habs : path.head? = some '/')
    (h : reference_scan (g_strsplit path '/' 0) [] = some segs) :
    canonicalize_path path = .ok (some ('/' :: ['/'].intercalate segs)) ∧
      ∀ t ∈ segs, IsSegment t := by
  cases path with
  | nil => simp at habs
  | cons c rest =>
    simp at habs
    subst habs
    have hseg : ∀ t ∈ segs, IsSegment t := by
      refine reference_scan_segments _ [] segs ?_ (by simp) h
      rw [g_strsplit_absolute]
      intro t ht
      rcases List.mem_cons.1 ht with ht | ht
      · simp [ht]
      · exact split_all_no_delimiter _ _ t ht
    refine ⟨?_, hseg⟩
    unfold canonicalize_path
    rw [if_pos (by simp), canonicalize_loop_of_reference_scan _ [] segs h]
    simp only
    rw [g_build_filenamev_root segs (fun t ht => ⟨(hseg t ht).1, (hseg t ht).2.1⟩)]

/-- A path made of `/` and retained segments is returned unchanged. -/
theorem canonicalize_path_of_segments (segs : List CStr) (h : ∀ t ∈ segs, IsSegment t) :
    canonicalize_path ('/' :: ['/'].intercalate segs) =
      .ok (some ('/' :: ['/'].intercalate segs)) := by
  refine (canonicalize_path_of_reference_scan ('/' :: ['/'].intercalate segs) segs
    (by simp) ?_).1
  rw [g_strsplit_absolute]
  cases segs with
  | nil => simp [List.intercalate, split_all, reference_scan]
  | cons t ts =>
    rw [split_all_intercalate t ts (fun u hu => (h u hu).2.1)]
    unfold reference_scan
    rw [if_pos (Or.inl rfl)]
    simpa using reference_scan_of_segments (t :: ts) [] h

/-- Where no `..` of an absolute path finds the list of retained segments
empty, canonicalizing twice equals canonicalizing once. -/
theorem canonicalize_path_idempotent_of_reference_scan (path : CStr) (segs : List CStr)
    (habs : path.head? = some '/')
    (h : reference_scan (g_strsplit path '/' 0) [] = some segs) :
    ∃ q, canonicalize_path path = .ok (some q) ∧ canonicalize_path q = .ok (some q) := by
  obtain ⟨h1, h2⟩ := canonicalize_path_of_reference_scan path segs habs h
  exact ⟨_, h1, canonicalize_path_of_segments segs h2⟩

/-! ## Supporting lemmas: the status branch of `caja_dropbox_finish_file_info_command` -/

theorem tag_emblem_eq_some_iff (t0 e : CStr) :
    tag_emblem t0 = some e ↔
      (t0 = "public".toList ∧ e = "web".toList) ∨
      (t0 = "shared".toList ∧ e = "people".toList) ∨
      (t0 = "photos".toList ∧ e = "photos".toList) ∨
      (t0 = "sandbox".toList ∧ e = "star".toList) := by
  unfold tag_emblem
  by_cases h1 : t0 = "public".toList
  · subst h1; simp [eq_comm]
  · by_cases h2 : t0 = "shared".toList
    · subst h2; simp [eq_comm]
    · by_cases h3 : t0 = "photos".toList
      · subst h3; simp [eq_comm]
      · by_cases h4 : t0 = "sandbox".toList
        · subst h4; simp [eq_comm]
        · rw [if_neg h1, if_neg h2, if_neg h3, if_neg h4]
          constructor
          · intro h; cases h
          · rintro (⟨h, _⟩ | ⟨h, _⟩ | ⟨h, _⟩ | ⟨h, _⟩)
            · exact absurd h h1
            · exact absurd h h2
            · exact absurd h h3
            · exact absurd h h4

/-- The status branch of `caja_dropbox_finish_file_info_command`, for a query
that was not cancelled, without an `emblems` list, with the status `s`. -/
theorem finish_emblems_status (dficr : DropboxFileInfoCommandResponse) (isdir : Bool)
    (s : CStr) (rest : List CStr)
    (hc : dficr.dfic.cancelled = false)
    (hem : dficr.emblems_response.bind
      (fun t => g_hash_table_lookup t "emblems".toList) = none)
    (hst : dficr.file_status_response.bind
      (fun t => g_hash_table_lookup t "status".toList) = some (s :: rest)) :
    finish_emblems dficr isdir =
      match isdir, dficr.folder_tag_response with
      | false, _ => .ok ((status_emblem s).toList, .CAJA_OPERATION_COMPLETE)
      | true, none => .ok ([], .CAJA_OPERATION_FAILED)
      | true, some tt =>
        match g_hash_table_lookup tt "tag".toList with
        | none => .ok ((status_emblem s).toList, .CAJA_OPERATION_COMPLETE)
        | some [] => .error .null_dereference
        | some (t0 :: _) =>
          .ok ((tag_emblem t0).toList ++ (status_emblem s).toList,
            .CAJA_OPERATION_COMPLETE) := by
  unfold finish_emblems
  rw [if_pos hc, hem, hst]
  cases isdir with
  | false => rfl
  | true =>
    cases dficr.folder_tag_response with
    | none => rfl
    | some tt =>
      simp only [Option.isSome_some, and_self, true_or, if_true, Option.some_bind]
      cases g_hash_table_lookup tt "tag".toList with
      | none => rfl
      | some tags =>
        cases tags with
        | nil => rfl
        | cons t0 trest => rfl

/-! ## Supporting lemmas: the nesting bound of `caja_dropbox_parse_menu` -/

theorem leaf_count_append (xs ys : List CajaMenuItem) :
    leaf_count (xs ++ ys) = leaf_count xs + leaf_count ys := by
  induction xs with
  | nil => simp [leaf_count]
  | cons x xs ih => simp [leaf_count, ih, Nat.add_assoc]

theorem length_le_longest (options : List CStr) (o : CStr) (h : o ∈ options) :
    o.length ≤ longest options := by
  induction options with
  | nil => cases h
  | cons x xs ih =>
    simp only [longest, List.foldr_cons]
    rcases List.mem_cons.1 h with h | h
    · subst h; exact Nat.le_max_left _ _
    · exact Nat.le_trans (ih h) (Nat.le_max_right _ _)

theorem longest_le (options : List CStr) (n : Nat) (h : ∀ o ∈ options, o.length ≤ n) :
    longest options ≤ n := by
  induction options with
  | nil => simp [longest]
  | cons x xs ih =>
    simp only [longest, List.foldr_cons]
    exact Nat.max_le.2 ⟨h x (List.mem_cons_self _ _),
      ih (fun o ho => h o (List.mem_cons_of_mem _ ho))⟩

theorem split_all_length_le (d : Char) (s : CStr) :
    ∀ t ∈ split_all d s, t.length ≤ s.length := by
  induction s with
  | nil => simp [split_all]
  | cons c cs ih =>
    rw [split_all]
    split
    · intro t ht
      rcases List.mem_cons.1 ht with h | h
      · simp [h]
      · exact Nat.le_succ_of_le (ih t h)
    · split
      · intro t ht
        simp at ht
        simp [ht]
      · rename_i t ts heq
        intro u hu
        rcases List.mem_cons.1 hu with h | h
        · subst h
          have := ih t (by rw [heq]; simp)
          simpa using this
        · exact Nat.le_succ_of_le (ih u (by rw [heq]; simp [h]))

theorem longest_g_strsplit_all (s : CStr) (d : Char) :
    longest (g_strsplit s d (-1)) ≤ s.length := by
  apply longest_le
  intro o ho
  unfold g_strsplit at ho
  split at ho
  · cases ho
  · rw [if_pos (by decide)] at ho
    exact split_all_length_le d s o ho

theorem split_tokens_length_sum (d : Char) (s : CStr) :
    ∀ n : Nat, ((split_tokens d n s).map List.length).sum + (split_tokens d n s).length
      = s.length + 1 := by
  induction s with
  | nil => intro n; simp [split_tokens]
  | cons c cs ih =>
    intro n
    cases n with
    | zero => simp [split_tokens]
    | succ n =>
      rw [split_tokens]
      split
      · have := ih n
        simp only [List.map_cons, List.sum_cons, List.length_cons, List.length_nil]
        omega
      · have := ih (n + 1)
        split
        · rename_i heq
          rw [heq] at this
          simp at this
        · rename_i t ts heq
          rw [heq] at this
          simp only [List.map_cons, List.sum_cons, List.length_cons] at this ⊢
          omega

theorem g_strsplit_three_lengths (option name inner verb : CStr)
    (h : g_strsplit option '~' 3 = [name, inner, verb]) :
    name.length + inner.length + verb.length + 2 = option.length := by
  unfold g_strsplit at h
  split at h
  · cases h
  · rw [if_neg (by decide)] at h
    have := split_tokens_length_sum '~' option (3 - 1 : Int).toNat
    rw [h] at this
    simp at this
    omega

theorem GhettoURLDecode_from_written_length (n : Int) (input written : CStr) :
    (GhettoURLDecode_from n input written).written.length ≤ written.length + input.length := by
  induction input, written using GhettoURLDecode_from.induct n with
  | case1 written h => simp [GhettoURLDecode_from, h]
  | case2 written h => simp [GhettoURLDecode_from, h]
  | case3 written h s1 s2 rest2 hx ih =>
    simp only [GhettoURLDecode_from, if_pos h, hx, and_self, if_true]
    simp only [List.length_append, List.length_cons, List.length_nil] at ih ⊢
    omega
  | case4 written h s1 s2 rest2 hx =>
    simp only [GhettoURLDecode_from, if_pos h, hx, if_false, if_true]
    omega
  | case5 rest written h hrest =>
    unfold GhettoURLDecode_from
    simp only [if_pos h, if_true]
    omega
  | case6 c rest written h hc ih =>
    unfold GhettoURLDecode_from
    simp only [if_pos h, if_neg hc]
    simp only [List.length_append, List.length_cons, List.length_nil] at ih ⊢
    omega
  | case7 c rest written h =>
    unfold GhettoURLDecode_from
    simp [if_neg h]

theorem decode_in_place_length_le (s : CStr) : (decode_in_place s).length ≤ s.length := by
  unfold decode_in_place
  have hw := GhettoURLDecode_from_written_length s.length s []
  simp only [List.length_nil, Nat.zero_add] at hw
  simp only
  refine Nat.le_trans (List.takeWhile_sublist _).length_le ?_
  unfold GhettoURLDecode
  split
  · exact hw
  · simp only [List.length_append, List.length_drop]
    omega

/-- The entries a nested call is made on are shorter than the entry they come
from. -/
theorem longest_suboptions_lt (option name inner verb : CStr)
    (h : g_strsplit option '~' 3 = [name, inner, verb]) :
    longest (g_strsplit (decode_in_place inner) '|' (-1)) < option.length := by
  have h1 := longest_g_strsplit_all (decode_in_place inner) '|'
  have h2 := decode_in_place_length_le inner
  have h3 := g_strsplit_three_lengths option name inner verb h
  omega

theorem parse_menu_option_congr (f g : List CStr → CStr → Option ParseOutcome)
    (old option : CStr)
    (h : ∀ subs a, longest subs < option.length → f subs a = g subs a) :
    parse_menu_option f old option = parse_menu_option g old option := by
  unfold parse_menu_option
  split
  · rename_i name inner verb hsplit
    simp only
    split
    · rw [h _ _ (longest_suboptions_lt option name inner verb hsplit)]
    · rfl
  · rfl

theorem parse_menu_loop_congr (f g : List CStr → CStr → Option ParseOutcome)
    (old : CStr) (options : List CStr)
    (h : ∀ subs a, longest subs < longest options → f subs a = g subs a) :
    parse_menu_loop f old options = parse_menu_loop g old options := by
  induction options with
  | nil => rfl
  | cons o rest ih =>
    have hl : longest rest ≤ longest (o :: rest) := by
      simp only [longest, List.foldr_cons]; exact Nat.le_max_right _ _
    have ho : o.length ≤ longest (o :: rest) :=
      length_le_longest _ _ (List.mem_cons_self _ _)
    unfold parse_menu_loop
    rw [parse_menu_option_congr f g old o (fun subs a hs => h subs a (by omega)),
      ih (fun subs a hs => h subs a (by omega))]

theorem parse_menu_depth_independent (d1 : Nat) :
    ∀ (d2 : Nat) (options : List CStr) (old : CStr),
      longest options < d1 → longest options < d2 →
      parse_menu_depth d1 options old = parse_menu_depth d2 options old := by
  induction d1 with
  | zero => intro d2 options old h; omega
  | succ e1 ih =>
    intro d2 options old h1 h2
    cases d2 with
    | zero => omega
    | succ e2 =>
      simp only [parse_menu_depth]
      exact parse_menu_loop_congr _ _ old options
        (fun subs a hs => ih e2 subs a (by omega) (by omega))

/-- The function `caja_dropbox_parse_menu` unfolds as the C function reads: it
is its loop, with itself as the nested call. -/
theorem caja_dropbox_parse_menu_eq (options : List CStr) (old : CStr) :
    caja_dropbox_parse_menu options old =
      parse_menu_loop caja_dropbox_parse_menu old options := by
  unfold caja_dropbox_parse_menu
  simp only [parse_menu_depth]
  apply parse_menu_loop_congr
  intro subs a hs
  exact parse_menu_depth_independent _ _ subs a hs (Nat.lt_succ_self _)

theorem parse_menu_loop_append (f : List CStr → CStr → Option ParseOutcome)
    (old : CStr) (xs ys : List CStr) :
    parse_menu_loop f old (xs ++ ys) =
      match parse_menu_loop f old xs, parse_menu_loop f old ys with
      | some a, some b => some { items := a.items ++ b.items, ret := a.ret + b.ret }
      | _, _ => none := by
  induction xs with
  | nil =>
    simp only [List.nil_append, parse_menu_loop]
    cases parse_menu_loop f old ys <;> simp
  | cons x xs ih =>
    rw [List.cons_append, parse_menu_loop, ih, parse_menu_loop]
    cases parse_menu_option f old x <;> cases parse_menu_loop f old xs <;>
      cases parse_menu_loop f old ys <;> simp [Int.add_assoc]

/-- The function `caja_dropbox_parse_menu` returns, for every option list. -/
theorem caja_dropbox_parse_menu_total (n : Nat) :
    ∀ (options : List CStr) (old : CStr), longest options ≤ n →
      ∃ r, caja_dropbox_parse_menu options old = some r := by
  induction n using Nat.strong_induction_on with
  | _ n ih =>
    intro options old hn
    rw [caja_dropbox_parse_menu_eq]
    have hloop : ∀ opts : List CStr, longest opts ≤ n →
        ∃ r, parse_menu_loop caja_dropbox_parse_menu old opts = some r := by
      intro opts
      induction opts with
      | nil => intro _; exact ⟨_, rfl⟩
      | cons o rest ihr =>
        intro hlen
        have hl : longest rest ≤ longest (o :: rest) := by
          simp only [longest, List.foldr_cons]; exact Nat.le_max_right _ _
        have ho : o.length ≤ longest (o :: rest) :=
          length_le_longest _ _ (List.mem_cons_self _ _)
        obtain ⟨rr, hrr⟩ := ihr (by omega)
        have hopt : ∃ ro, parse_menu_option caja_dropbox_parse_menu old o = some ro := by
          unfold parse_menu_option
          split
          · rename_i name inner verb hsplit
            simp only
            split
            · have hlt := longest_suboptions_lt o name inner verb hsplit
              obtain ⟨rs, hrs⟩ := ih (longest (g_strsplit (decode_in_place inner) '|' (-1)))
                (by omega) (g_strsplit (decode_in_place inner) '|' (-1))
                (old ++ decode_in_place name ++ "::".toList) (Nat.le_refl _)
              rw [hrs]
              exact ⟨_, rfl⟩
            · exact ⟨_, rfl⟩
          · exact ⟨_, rfl⟩
        obtain ⟨ro, hro⟩ := hopt
        unfold parse_menu_loop
        rw [hro, hrr]
        exact ⟨_, rfl⟩
    exact hloop options hn

/-- Induction over the calls of `caja_dropbox_parse_menu`: a property of the
items appended and the value returned holds for every call if it holds for the
empty menu, is kept when two runs of the loop are put one after the other, holds
for every action item the loop makes, and passes from the nested call to the
submenu item made from it. -/
theorem parse_menu_outcome_induction (Q : CStr → List CajaMenuItem → Int → Prop)
    (hnil : ∀ old, Q old [] 0)
    (happ : ∀ old i1 r1 i2 r2, Q old i1 r1 → Q old i2 r2 → Q old (i1 ++ i2) (r1 + r2))
    (hact : ∀ old label tip verb sens,
      Q old [CajaMenuItem.action (old ++ verb) label tip verb sens] 1)
    (hsub : ∀ old label items ret, Q (old ++ label ++ "::".toList) items ret →
      Q old [CajaMenuItem.submenu (old ++ label ++ "::".toList) label [] items] ret)
    (n : Nat) :
    ∀ (options : List CStr) (old : CStr) (r : ParseOutcome), longest options ≤ n →
      caja_dropbox_parse_menu options old = some r → Q old r.items r.ret := by
  induction n using Nat.strong_induction_on with
  | _ n ih =>
    intro options old r hn hr
    rw [caja_dropbox_parse_menu_eq] at hr
    have hloop : ∀ (opts : List CStr) (ro : ParseOutcome), longest opts ≤ n →
        parse_menu_loop caja_dropbox_parse_menu old opts = some ro →
        Q old ro.items ro.ret := by
      intro opts
      induction opts with
      | nil =>
        intro ro _ hro
        simp only [parse_menu_loop, Option.some.injEq] at hro
        subst hro
        exact hnil old
      | cons o rest ihr =>
        intro ro hlen hro
        have hl : longest rest ≤ longest (o :: rest) := by
          simp only [longest, List.foldr_cons]; exact Nat.le_max_right _ _
        have ho : o.length ≤ longest (o :: rest) :=
          length_le_longest _ _ (List.mem_cons_self _ _)
        unfold parse_menu_loop at hro
        cases hfirst : parse_menu_option caja_dropbox_parse_menu old o with
        | none => rw [hfirst] at hro; cases hro
        | some first =>
          cases hothers : parse_menu_loop caja_dropbox_parse_menu old rest with
          | none => rw [hfirst, hothers] at hro; cases hro
          | some others =>
            rw [hfirst, hothers] at hro
            simp only [Option.some.injEq] at hro
            subst hro
            refine happ old _ _ _ _ ?_ (ihr others (by omega) hothers)
            unfold parse_menu_option at hfirst
            split at hfirst
            · rename_i name inner verb hsplit
              simp only at hfirst
              split at hfirst
              · have hlt := longest_suboptions_lt o name inner verb hsplit
                cases hsubr : caja_dropbox_parse_menu
                    (g_strsplit (decode_in_place inner) '|' (-1))
                    (old ++ decode_in_place name ++ "::".toList) with
                | none => rw [hsubr] at hfirst; cases hfirst
                | some sub =>
                  rw [hsubr] at hfirst
                  simp only [Option.some.injEq] at hfirst
                  subst hfirst
                  exact hsub old _ _ _
                    (ih _ (by omega) _ _ sub (Nat.le_refl _) hsubr)
              · simp only [Option.some.injEq] at hfirst
                subst hfirst
                exact hact old _ _ _ _
            · simp only [Option.some.injEq] at hfirst
              subst hfirst
              exact hnil old
    exact hloop options r hn hr

theorem reaches_append (xs ys : List CajaMenuItem) (labels : List CStr)
    (leaf : CajaMenuItem) (h : Reaches (xs ++ ys) labels leaf) :
    Reaches xs labels leaf ∨ Reaches ys labels leaf := by
  cases h with
  | here _ name label tip verb sensitive hmem =>
    rcases List.mem_append.1 hmem with h | h
    · exact Or.inl (Reaches.here _ _ _ _ _ _ h)
    · exact Or.inr (Reaches.here _ _ _ _ _ _ h)
  | down _ sub name label tip labels leaf hmem hsub =>
    rcases List.mem_append.1 hmem with h | h
    · exact Or.inl (Reaches.down _ _ _ _ _ _ _ h hsub)
    · exact Or.inr (Reaches.down _ _ _ _ _ _ _ h hsub)

/-- The name of every action item is the action string of the call, followed
by the labels of the submenus above the item, each with `::` after it, followed
by the verb stored on the item. -/
theorem parse_menu_action_path (options : List CStr) (old : CStr) (r : ParseOutcome)
    (h : caja_dropbox_parse_menu options old = some r) :
    ∀ (labels : List CStr) (name label tip verb : CStr) (sensitive : Bool),
      Reaches r.items labels (CajaMenuItem.action name label tip verb sensitive) →
      name = old ++ (labels.map (fun l => l ++ "::".toList)).flatten ++ verb := by
  refine parse_menu_outcome_induction
    (fun old items _ => ∀ (labels : List CStr) (name label tip verb : CStr)
      (sensitive : Bool),
      Reaches items labels (CajaMenuItem.action name label tip verb sensitive) →
      name = old ++ (labels.map (fun l => l ++ "::".toList)).flatten ++ verb)
    ?_ ?_ ?_ ?_ (longest options) options old r (Nat.le_refl _) h
  · intro old labels name label tip verb sensitive hr
    cases hr with
    | here _ _ _ _ _ _ hmem => cases hmem
    | down _ _ _ _ _ _ _ hmem _ => cases hmem
  · intro old i1 _ i2 _ h1 h2 labels name label tip verb sensitive hr
    rcases reaches_append _ _ _ _ hr with hr | hr
    · exact h1 _ _ _ _ _ _ hr
    · exact h2 _ _ _ _ _ _ hr
  · intro old label tip verb sens labels name label2 tip2 verb2 sensitive hr
    cases hr with
    | here _ _ _ _ _ _ hmem =>
      simp only [List.mem_singleton, CajaMenuItem.action.injEq] at hmem
      obtain ⟨h1, _, _, h4, _⟩ := hmem
      subst h1 h4
      simp
    | down _ _ _ _ _ _ _ hmem _ =>
      simp at hmem
  · intro old label items _ hq labels name label2 tip2 verb2 sensitive hr
    cases hr with
    | here _ _ _ _ _ _ hmem => simp at hmem
    | down _ sub nm lb tp lbls leaf hmem hsub =>
      simp only [List.mem_singleton, CajaMenuItem.submenu.injEq] at hmem
      obtain ⟨_, h2, _, h4⟩ := hmem
      subst h2 h4
      have := hq _ _ _ _ _ _ hsub
      rw [this]
      simp [List.append_assoc]

/-- An entry with fewer than three fields adds nothing: the outcome is the one
of the list without it. -/
theorem parse_menu_skips_short_entry (before after : List CStr) (entry old : CStr)
    (h : (g_strsplit entry '~' 3).length < 3) :
    caja_dropbox_parse_menu (before ++ entry :: after) old =
      caja_dropbox_parse_menu (before ++ after) old := by
  have hskip : parse_menu_option caja_dropbox_parse_menu old entry =
      some { items := [], ret := 0 } := by
    unfold parse_menu_option
    split
    · rename_i name inner verb hsplit
      rw [hsplit] at h
      simp at h
    · rfl
  rw [caja_dropbox_parse_menu_eq, caja_dropbox_parse_menu_eq (before ++ after),
    parse_menu_loop_append, parse_menu_loop_append]
  conv_lhs => rw [parse_menu_loop, hskip]
  cases parse_menu_loop caja_dropbox_parse_menu old before <;>
    cases parse_menu_loop caja_dropbox_parse_menu old after <;> simp

/-- The outcome for a list of entries, seen from one well-formed entry of it:
the items of the entries before it, one item for the entry, and the items of
the entries after it. -/
theorem parse_menu_at_entry (before after : List CStr) (entry old : CStr)
    (item : CajaMenuItem) (ret : Int) (rb ra : ParseOutcome)
    (hb : caja_dropbox_parse_menu before old = some rb)
    (ha : caja_dropbox_parse_menu after old = some ra)
    (hopt : parse_menu_option caja_dropbox_parse_menu old entry =
      some { items := [item], ret := ret }) :
    caja_dropbox_parse_menu (before ++ entry :: after) old =
      some { items := rb.items ++ item :: ra.items, ret := rb.ret + (ret + ra.ret) } := by
  rw [caja_dropbox_parse_menu_eq] at hb ha
  rw [caja_dropbox_parse_menu_eq, parse_menu_loop_append, hb, parse_menu_loop, hopt, ha]
  rfl

/-! ## Supporting lemmas: `GhettoURLDecode` against the reference decoding -/

theorem char_toNat_ofNat_small (n : Nat) (h : n < 256) : (Char.ofNat n).toNat = n := by
  have hv : n.isValidChar := Or.inl (by omega)
  simp [Char.ofNat, hv, Char.ofNatAux, Char.toNat, UInt32.toNat]

theorem char_eq_of_toNat_eq (c d : Char) (h : c.toNat = d.toNat) : c = d := by
  rw [← Char.ofNat_toNat c, ← Char.ofNat_toNat d, h]

theorem g_ascii_isxdigit_eq (c : Char) : g_ascii_isxdigit c = is_hex_digit c := rfl

theorem char_le_iff (c d : Char) : c ≤ d ↔ c.toNat ≤ d.toNat := Iff.rfl

theorem is_hex_digit_iff (c : Char) :
    is_hex_digit c = true ↔
      (48 ≤ c.toNat ∧ c.toNat ≤ 57) ∨ (97 ≤ c.toNat ∧ c.toNat ≤ 102) ∨
        (65 ≤ c.toNat ∧ c.toNat ≤ 70) := by
  unfold is_hex_digit
  rw [decide_eq_true_iff]
  exact Iff.rfl

/-- On hexadecimal digits the macro `XDIGIT` gives the value of the digit. -/
theorem XDIGIT_eq_hex_value (c : Char) (h : is_hex_digit c = true) :
    XDIGIT c = hex_value c ∧ hex_value c ≤ 15 := by
  rw [is_hex_digit_iff] at h
  have h1 : XDIGIT c =
      if c.toNat ≤ 57 then c.toNat - 48 else (c.toNat &&& 0x4F) - 65 + 10 := rfl
  have h2 : hex_value c =
      if 48 ≤ c.toNat ∧ c.toNat ≤ 57 then c.toNat - 48
      else if 97 ≤ c.toNat ∧ c.toNat ≤ 102 then c.toNat - 97 + 10
      else if 65 ≤ c.toNat ∧ c.toNat ≤ 70 then c.toNat - 65 + 10
      else 0 := by
    unfold hex_value
    simp only [char_le_iff]
    rfl
  rw [h1, h2]
  generalize c.toNat = n at h
  rcases h with ⟨ha, hb⟩ | ⟨ha, hb⟩ | ⟨ha, hb⟩ <;> interval_cases n <;> decide

theorem HEXCHAR_eq (x y : Char) (hx : is_hex_digit x = true) (hy : is_hex_digit y = true) :
    HEXCHAR x y = Char.ofNat (16 * hex_value x + hex_value y) := by
  obtain ⟨h1, h2⟩ := XDIGIT_eq_hex_value x hx
  obtain ⟨h3, h4⟩ := XDIGIT_eq_hex_value y hy
  unfold HEXCHAR
  rw [h1, h3, Nat.shiftLeft_eq]
  congr 1
  omega

theorem hex_value_eq_zero (c : Char) (h : is_hex_digit c = true) :
    hex_value c = 0 ↔ c = '0' := by
  constructor
  · intro hz
    apply char_eq_of_toNat_eq
    show c.toNat = 48
    rw [is_hex_digit_iff] at h
    have h2 : hex_value c =
        if 48 ≤ c.toNat ∧ c.toNat ≤ 57 then c.toNat - 48
        else if 97 ≤ c.toNat ∧ c.toNat ≤ 102 then c.toNat - 97 + 10
        else if 65 ≤ c.toNat ∧ c.toNat ≤ 70 then c.toNat - 65 + 10
        else 0 := by
      unfold hex_value
      simp only [char_le_iff]
      rfl
    rw [h2] at hz
    generalize c.toNat = n at h hz
    split_ifs at hz <;> omega
  · intro hc
    subst hc
    decide

theorem decoded_char_eq_nul (x y : Char) (hx : is_hex_digit x = true)
    (hy : is_hex_digit y = true) :
    Char.ofNat (16 * hex_value x + hex_value y) = Char.ofNat 0 ↔ x = '0' ∧ y = '0' := by
  obtain ⟨_, h2⟩ := XDIGIT_eq_hex_value x hx
  obtain ⟨_, h4⟩ := XDIGIT_eq_hex_value y hy
  constructor
  · intro h
    have := congrArg Char.toNat h
    rw [char_toNat_ofNat_small _ (by omega), char_toNat_ofNat_small 0 (by omega)] at this
    exact ⟨(hex_value_eq_zero x hx).1 (by omega), (hex_value_eq_zero y hy).1 (by omega)⟩
  · rintro ⟨e1, e2⟩
    subst e1 e2
    decide

theorem reference_decode_escape (x y : Char) (r : CStr) (hx : is_hex_digit x = true)
    (hy : is_hex_digit y = true) :
    reference_decode ('%' :: x :: y :: r) =
      Char.ofNat (16 * hex_value x + hex_value y) :: reference_decode r := by
  simp [reference_decode, hx, hy]

theorem reference_decode_other (c : Char) (r : CStr) (hc : c ≠ '%') :
    reference_decode (c :: r) = c :: reference_decode r := by
  rcases r with _ | ⟨x, _ | ⟨y, r2⟩⟩ <;> simp [reference_decode, hc]

theorem well_escaped_escape (x y : Char) (r : CStr) :
    well_escaped ('%' :: x :: y :: r) =
      (is_hex_digit x && is_hex_digit y && well_escaped r) := by
  simp [well_escaped]

theorem well_escaped_other (c : Char) (r : CStr) (hc : c ≠ '%') :
    well_escaped (c :: r) = well_escaped r := by
  rcases r with _ | ⟨x, _ | ⟨y, r2⟩⟩ <;> simp [well_escaped, hc]

theorem well_escaped_short (rest : CStr)
    (h : ∀ (x y : Char) (r : CStr), rest = x :: y :: r → False) :
    well_escaped ('%' :: rest) = false := by
  rcases rest with _ | ⟨x, _ | ⟨y, r2⟩⟩
  · simp [well_escaped]
  · simp [well_escaped]
  · exact absurd rfl (fun e => h x y r2 e)

theorem reference_decode_short (rest : CStr)
    (h : ∀ (x y : Char) (r : CStr), rest = x :: y :: r → False) :
    reference_decode ('%' :: rest) = '%' :: reference_decode rest := by
  rcases rest with _ | ⟨x, _ | ⟨y, r2⟩⟩
  · simp [reference_decode]
  · simp [reference_decode]
  · exact absurd rfl (fun e => h x y r2 e)

theorem reference_decode_not_hex (x y : Char) (r : CStr)
    (h : ¬ (is_hex_digit x = true ∧ is_hex_digit y = true)) :
    reference_decode ('%' :: x :: y :: r) = '%' :: reference_decode (x :: y :: r) := by
  rw [reference_decode]
  simp only [if_true, if_neg h]

theorem reference_decode_length_le (s : CStr) :
    (reference_decode s).length ≤ s.length := by
  induction s using reference_decode.induct with
  | case1 => simp [reference_decode]
  | case2 x y r hxy _ ih =>
    rw [reference_decode_escape x y r hxy.1 hxy.2]
    simp only [List.length_cons]; omega
  | case3 x y r hxy ih =>
    rw [reference_decode_not_hex x y r hxy]
    simp only [List.length_cons] at ih ⊢; omega
  | case4 r h ih =>
    rw [reference_decode_short r h]
    simp only [List.length_cons]; omega
  | case5 c r hc ih =>
    rw [reference_decode_other c r hc]
    simp only [List.length_cons]; omega

theorem reference_decode_of_no_percent (s : CStr) (h : '%' ∉ s) : reference_decode s = s := by
  induction s with
  | nil => rfl
  | cons c r ih =>
    simp only [List.mem_cons, not_or] at h
    rw [reference_decode_other c r (fun e => h.1 e.symm), ih h.2]

theorem reference_decode_length_lt (s : CStr) (hw : well_escaped s = true) (h : '%' ∈ s) :
    (reference_decode s).length < s.length := by
  induction s using well_escaped.induct with
  | case1 => cases h
  | case2 x y r _ =>
    rw [well_escaped_escape] at hw
    simp only [Bool.and_eq_true] at hw
    rw [reference_decode_escape x y r hw.1.1 hw.1.2]
    have := reference_decode_length_le r
    simp only [List.length_cons]; omega
  | case3 r hr =>
    rw [well_escaped_short r hr] at hw; cases hw
  | case4 c r hc ih =>
    rw [well_escaped_other c r hc] at hw
    rw [reference_decode_other c r hc]
    simp only [List.mem_cons] at h
    rcases h with h | h
    · exact absurd h.symm hc
    · have := ih hw h
      simp only [List.length_cons]; omega

theorem reference_decode_no_nul (s : CStr) (hw : well_escaped s = true)
    (hs : Char.ofNat 0 ∉ s) (he : has_nul_escape s = false) :
    Char.ofNat 0 ∉ reference_decode s := by
  induction s using well_escaped.induct with
  | case1 => simp [reference_decode]
  | case2 x y r ih =>
    rw [well_escaped_escape] at hw
    simp only [Bool.and_eq_true] at hw
    rw [reference_decode_escape x y r hw.1.1 hw.1.2]
    have he2 : ¬ (x = '0' ∧ y = '0') ∧ has_nul_escape r = false := by
      simpa [has_nul_escape] using he
    simp only [List.mem_cons, not_or] at hs ⊢
    refine ⟨?_, ih hw.2 hs.2.2.2 he2.2⟩
    intro e
    exact he2.1 ((decoded_char_eq_nul x y hw.1.1 hw.1.2).1 e.symm)
  | case3 r hr =>
    rw [well_escaped_short r hr] at hw; cases hw
  | case4 c r hc ih =>
    rw [well_escaped_other c r hc] at hw
    rw [reference_decode_other c r hc]
    have he2 : has_nul_escape r = false := by
      rcases r with _ | ⟨x, _ | ⟨y, r2⟩⟩ <;> simp_all [has_nul_escape]
    simp only [List.mem_cons, not_or] at hs ⊢
    exact ⟨hs.1, ih hw hs.2 he2⟩

/-- On a string whose escapes are all well formed, with room for the decoded
characters and the terminator, `GhettoURLDecode` stores the reference decoding
and the terminator and returns the decoded length. -/
theorem GhettoURLDecode_from_fits (n : Int) (input written : CStr)
    (hw : well_escaped input = true)
    (hn : ((written.length + (reference_decode input).length : Nat) : Int) < n) :
    GhettoURLDecode_from n input written =
      { ret := ((written.length + (reference_decode input).length : Nat) : Int)
        written := written ++ reference_decode input
        terminated := true } := by
  induction input, written using GhettoURLDecode_from.induct n with
  | case1 written h => simp [GhettoURLDecode_from, h, reference_decode]
  | case2 written h =>
    simp only [reference_decode, List.length_nil, Nat.add_zero] at hn
    exact absurd hn h
  | case3 written h s1 s2 rest2 hx ih =>
    rw [g_ascii_isxdigit_eq, g_ascii_isxdigit_eq] at hx
    rw [well_escaped_escape] at hw
    simp only [Bool.and_eq_true] at hw
    rw [reference_decode_escape s1 s2 rest2 hx.1 hx.2] at hn ⊢
    simp only [GhettoURLDecode_from, if_pos h, g_ascii_isxdigit_eq, hx, and_self, if_true]
    rw [ih hw.2 (by simp only [List.length_append, List.length_cons, List.length_nil] at hn ⊢
                    omega), HEXCHAR_eq s1 s2 hx.1 hx.2]
    simp only [List.length_append, List.length_cons, List.length_nil, List.append_assoc,
      List.singleton_append, DecodeOutcome.mk.injEq, and_true]
    omega
  | case4 written h s1 s2 rest2 hx =>
    rw [g_ascii_isxdigit_eq, g_ascii_isxdigit_eq] at hx
    rw [well_escaped_escape] at hw
    simp only [Bool.and_eq_true] at hw
    exact absurd hw.1 hx
  | case5 rest written h hrest =>
    rw [well_escaped_short rest hrest] at hw; cases hw
  | case6 c rest written h hc ih =>
    rw [well_escaped_other c rest hc] at hw
    rw [reference_decode_other c rest hc] at hn ⊢
    unfold GhettoURLDecode_from
    simp only [if_pos h, if_neg hc]
    rw [ih hw (by simp only [List.length_append, List.length_cons, List.length_nil] at hn ⊢
                  omega)]
    simp only [List.length_append, List.length_cons, List.length_nil, List.append_assoc,
      List.singleton_append, DecodeOutcome.mk.injEq, and_true]
    omega
  | case7 c rest written h =>
    exfalso
    apply h
    have : (written.length : Int) ≤ ((written.length + (reference_decode (c :: rest)).length
      : Nat) : Int) := by omega
    omega

/-- On a string without `%` that is exactly as long as the room left,
`GhettoURLDecode` copies the string, stores no terminator and returns `-1`. -/
theorem GhettoURLDecode_from_plain (n : Int) (input : CStr) :
    ∀ written : CStr, '%' ∉ input →
      ((written.length + input.length : Nat) : Int) = n →
      GhettoURLDecode_from n input written =
        { ret := -1, written := written ++ input, terminated := false } := by
  induction input with
  | nil =>
    intro written _ hn
    simp only [List.length_nil, Nat.add_zero] at hn
    simp [GhettoURLDecode_from, hn]
  | cons c rest ih =>
    intro written hp hn
    simp only [List.mem_cons, not_or] at hp
    have hc : ¬ c = '%' := fun e => hp.1 e.symm
    have hlt : (written.length : Int) < n := by
      simp only [List.length_cons] at hn; omega
    unfold GhettoURLDecode_from
    simp only [if_pos hlt, if_neg hc]
    rw [ih (written ++ [c]) hp.2 (by
      simp only [List.length_append, List.length_cons, List.length_nil] at hn ⊢; omega)]
    simp

/-- What holds after every call of `GhettoURLDecode`: without the terminator
the value returned is `-1`, with it the value returned is the number of
characters stored, and characters and terminator fit into the bound. -/
theorem GhettoURLDecode_from_outcome (n : Int) (input written : CStr) :
    ((GhettoURLDecode_from n input written).terminated = false →
      (GhettoURLDecode_from n input written).ret = -1) ∧
    ((GhettoURLDecode_from n input written).terminated = true →
      (GhettoURLDecode_from n input written).ret =
        ((GhettoURLDecode_from n input written).written.length : Int) ∧
      ((GhettoURLDecode_from n input written).written.length : Int) < n) ∧
    ((written.length : Int) ≤ n →
      ((GhettoURLDecode_from n input written).written.length : Int) ≤ n) := by
  induction input, written using GhettoURLDecode_from.induct n with
  | case1 written h => simp [GhettoURLDecode_from, h]
  | case2 written h => simp [GhettoURLDecode_from, h]
  | case3 written h s1 s2 rest2 hx ih =>
    simp only [GhettoURLDecode_from, if_pos h, hx, and_self, if_true]
    refine ⟨ih.1, ih.2.1, fun _ => ih.2.2 ?_⟩
    simp only [List.length_append, List.length_cons, List.length_nil]
    omega
  | case4 written h s1 s2 rest2 hx =>
    simp only [GhettoURLDecode_from, if_pos h, hx, if_false, if_true]
    simp
  | case5 rest written h hrest =>
    unfold GhettoURLDecode_from
    simp only [if_pos h, if_true]
    simp
  | case6 c rest written h hc ih =>
    unfold GhettoURLDecode_from
    simp only [if_pos h, if_neg hc]
    refine ⟨ih.1, ih.2.1, fun _ => ih.2.2 ?_⟩
    simp only [List.length_append, List.length_cons, List.length_nil]
    omega
  | case7 c rest written h =>
    unfold GhettoURLDecode_from
    simp [if_neg h]

/-- A string with a malformed escape, or whose decoding does not leave room
for the terminator, gets no terminator. -/
theorem GhettoURLDecode_from_rejects (n : Int) (input written : CStr)
    (h : well_escaped input = false ∨
      n ≤ ((written.length + (reference_decode input).length : Nat) : Int)) :
    (GhettoURLDecode_from n input written).terminated = false := by
  induction input, written using GhettoURLDecode_from.induct n with
  | case1 written hlt =>
    rcases h with h | h
    · simp [well_escaped] at h
    · simp only [reference_decode, List.length_nil, Nat.add_zero] at h
      omega
  | case2 written hlt => simp [GhettoURLDecode_from, hlt]
  | case3 written hlt s1 s2 rest2 hx ih =>
    simp only [GhettoURLDecode_from, if_pos hlt, hx, and_self, if_true]
    rw [g_ascii_isxdigit_eq, g_ascii_isxdigit_eq] at hx
    apply ih
    rcases h with h | h
    · left
      rw [well_escaped_escape, hx.1, hx.2] at h
      simpa using h
    · right
      rw [reference_decode_escape s1 s2 rest2 hx.1 hx.2] at h
      simp only [List.length_append, List.length_cons, List.length_nil] at h ⊢
      omega
  | case4 written hlt s1 s2 rest2 hx =>
    simp only [GhettoURLDecode_from, if_pos hlt, hx, if_false, if_true]
  | case5 rest written hlt hrest =>
    unfold GhettoURLDecode_from
    simp only [if_pos hlt, if_true]
  | case6 c rest written hlt hc ih =>
    unfold GhettoURLDecode_from
    simp only [if_pos hlt, if_neg hc]
    apply ih
    rcases h with h | h
    · left
      rw [well_escaped_other c rest hc] at h
      exact h
    · right
      rw [reference_decode_other c rest hc] at h
      simp only [List.length_append, List.length_cons, List.length_nil] at h ⊢
      omega
  | case7 c rest written hlt =>
    unfold GhettoURLDecode_from
    simp [if_neg hlt]

/-! ## Supporting lemmas: the write index of `canonicalize_path` -/

theorem canonicalize_indices_le (elts : List CStr) :
    ∀ cpy : List CStr, ∀ j ∈ canonicalize_indices elts cpy, j ≤ cpy.length + elts.length := by
  induction elts with
  | nil =>
    intro cpy j hj
    simp only [canonicalize_indices, List.mem_singleton] at hj
    omega
  | cons e rest ih =>
    intro cpy j hj
    unfold canonicalize_indices at hj
    rcases List.mem_cons.1 hj with hj | hj
    · omega
    · simp only [List.length_cons]
      split at hj
      · split at hj
        · have := ih _ j hj
          simp only [List.length_dropLast] at this
          omega
        · cases hj
      · split at hj
        · have := ih _ j hj
          simp only [List.length_append, List.length_cons, List.length_nil] at this
          omega
        · have := ih _ j hj
          omega

theorem canonicalize_loop_length_mem (elts : List CStr) :
    ∀ cpy out : List CStr, canonicalize_loop elts cpy = some out →
      out.length ∈ canonicalize_indices elts cpy := by
  induction elts with
  | nil =>
    intro cpy out h
    simp only [canonicalize_loop, Option.some.injEq] at h
    subst h
    simp [canonicalize_indices]
  | cons e rest ih =>
    intro cpy out h
    unfold canonicalize_loop at h
    unfold canonicalize_indices
    apply List.mem_cons_of_mem
    split at h
    · split at h
      · rename_i h1 h2
        rw [if_pos h1, if_pos h2]
        exact ih _ _ h
      · cases h
    · split at h
      · rename_i h1 h2
        rw [if_neg h1, if_pos h2]
        exact ih _ _ h
      · rename_i h1 h2
        rw [if_neg h1, if_neg h2]
        exact ih _ _ h

/-! ## The claims -/

/-- Claim C1, at the input where it fails. Starting from the empty cache, the
host shows handle `2` at `/q`, handle `1` at `/p` and then handle `1` at `/q`.
`caja_dropbox_update_file_info` re-keys handle `1` without looking for another
holder of `/q`, so afterwards both handles are mapped to `/q` while `/q` is
mapped back to handle `1` only: the two tables are not mutual inverses. -/
theorem bijection_broken_by_rename_in_update_file_info :
    ∃ cvs, run_calls caja_dropbox_instance_init rename_onto_claimed_path = .ok cvs ∧
      cvs.obj2filename 2 = some "/q".toList ∧
      cvs.obj2filename 1 = some "/q".toList ∧
      cvs.filename2obj "/q".toList = some 1 ∧
      ¬ Bijection cvs := by
  refine ⟨_, rfl, by decide, by decide, by decide, ?_⟩
  intro hb
  have h := (hb 2 "/q".toList).1 (by decide)
  revert h
  decide

/-- Claim C2. In any cache where handle `H1` is tracked under the canonical
path `p` in both tables and a different handle `H2` is not tracked,
`caja_dropbox_update_file_info` for `H2` with a local path whose canonical
form is `p` returns, and afterwards `H1` is no key of `obj2filename`, `H2` is
mapped to `p`, and `p` is mapped to `H2`, so that a lookup of `p` gives `H2`. -/
theorem update_file_info_evicts_stale_handle (cvs : CajaDropbox) (H1 H2 : FileHandle)
    (raw p : CStr) (is_connected is_gone workaround : Bool)
    (hcanon : canonicalize_path raw = .ok (some p))
    (_hH1 : cvs.obj2filename H1 = some p) (hp : cvs.filename2obj p = some H1)
    (hne : H2 ≠ H1) (hH2 : cvs.obj2filename H2 = none) :
    ∃ out, caja_dropbox_update_file_info cvs H2 (some raw) is_connected is_gone workaround
        = .ok out ∧
      out.cvs.obj2filename H1 = none ∧
      out.cvs.obj2filename H2 = some p ∧
      out.cvs.filename2obj p = some H2 ∧
      g_hash_table_lookup out.cvs.filename2obj p = some H2 := by
  have hne2 : H1 ≠ H2 := fun e => hne e.symm
  have key : (update_file_info_hashes cvs H2 p).obj2filename H1 = none ∧
      (update_file_info_hashes cvs H2 p).obj2filename H2 = some p ∧
      (update_file_info_hashes cvs H2 p).filename2obj p = some H2 := by
    simp [update_file_info_hashes, g_hash_table_lookup, g_hash_table_insert,
      g_hash_table_remove, hH2, hp, hne2]
  unfold caja_dropbox_update_file_info
  simp only [hcanon]
  split
  · exact ⟨_, rfl, key.1, key.2.1, key.2.2, key.2.2⟩
  · exact ⟨_, rfl, key.1, key.2.1, key.2.2, key.2.2⟩

/-- Claim C2 on its scenario: handle `1` and then handle `2` are both shown at
`/home/u/a.txt`. -/
theorem update_file_info_evicts_stale_handle_witness :
    ∃ out, caja_dropbox_update_file_info cache_H1 2 (some "/home/u/a.txt".toList)
        true false false = .ok out ∧
      out.cvs.obj2filename 1 = none ∧
      out.cvs.obj2filename 2 = some "/home/u/a.txt".toList ∧
      out.cvs.filename2obj "/home/u/a.txt".toList = some 2 ∧
      g_hash_table_lookup out.cvs.filename2obj "/home/u/a.txt".toList = some 2 :=
  update_file_info_evicts_stale_handle cache_H1 1 2 "/home/u/a.txt".toList
    "/home/u/a.txt".toList true false false
    (by decide) (by decide) (by decide) (by decide) (by decide)

/-- Claim C3, at the input where it fails. Handle `1` is tracked under `/p`
and handle `2` under `/q`, in both tables. `caja_dropbox_update_file_info` for
handle `1` with the path `/q` maps handle `1` and `/q` to each other, but
handle `2` is not evicted: it is still mapped to `/q`. Nor is `/p` removed from
`filename2obj`: the removal at line 231 is handed the name that line 230 has
freed, so `/p` stays mapped to handle `1`. -/
theorem update_file_info_rename_keeps_conflicting_handle :
    ∃ out, caja_dropbox_update_file_info cache_two_files 1 (some "/q".toList)
        true false false = .ok out ∧
      cache_two_files.obj2filename 1 = some "/p".toList ∧
      cache_two_files.filename2obj "/p".toList = some 1 ∧
      cache_two_files.obj2filename 2 = some "/q".toList ∧
      cache_two_files.filename2obj "/q".toList = some 2 ∧
      out.cvs.obj2filename 1 = some "/q".toList ∧
      out.cvs.filename2obj "/q".toList = some 1 ∧
      out.cvs.obj2filename 2 = some "/q".toList ∧
      out.cvs.filename2obj "/p".toList = some 1 := by
  refine ⟨_, rfl, ?_, ?_, ?_, ?_, ?_, ?_, ?_, ?_⟩ <;> decide

/-- Claim C4, at the inputs where it fails. The first `..` that finds no
directory left pops the root slot `cpy[0]` instead of failing: `/..` and
`/a/../..` give the empty string and `/../a` gives `a`. The `NULL` result only
comes with the next `..`, as for `/../..`. -/
theorem canonicalize_path_pops_the_root :
    canonicalize_path "/..".toList = .ok (some []) ∧
    canonicalize_path "/a/../..".toList = .ok (some []) ∧
    canonicalize_path "/../a".toList = .ok (some "a".toList) ∧
    canonicalize_path "/../..".toList = .ok none := by
  refine ⟨by decide, by decide, by decide, by decide⟩

/-- Claim C5, at the inputs where it fails. `canonicalize_path` returns `a`
for the absolute path `/../a` and the empty string for `/..`; neither result
begins with `/`, so a second call stops at `g_assert (path[0] == '/')`
instead of returning the same string. The example of the claim does hold:
`/a/./b/../c` gives `/a/c`, which is returned unchanged. -/
theorem canonicalize_path_not_idempotent_after_root_pop :
    canonicalize_path "/../a".toList = .ok (some "a".toList) ∧
    canonicalize_path "a".toList = .error .assertion_failed ∧
    canonicalize_path "/..".toList = .ok (some []) ∧
    canonicalize_path [] = .error .assertion_failed ∧
    canonicalize_path "/a/./b/../c".toList = .ok (some "/a/c".toList) ∧
    canonicalize_path "/a/c".toList = .ok (some "/a/c".toList) := by
  refine ⟨by decide, by decide, by decide, by decide, by decide, by decide⟩

/-- Claim C6, at the input where it fails. For `/a/../../b/c` the function
`canonicalize_path` returns `b/c`, which is not `/` followed by a joined list
of segments, whatever the segments. `/` and `//` do give `/`. -/
theorem canonicalize_path_result_not_absolute :
    canonicalize_path "/a/../../b/c".toList = .ok (some "b/c".toList) ∧
    (¬ ∃ segments : List CStr, "b/c".toList = '/' :: ['/'].intercalate segments) ∧
    canonicalize_path "/".toList = .ok (some "/".toList) ∧
    canonicalize_path "//".toList = .ok (some "/".toList) := by
  refine ⟨by decide, ?_, by decide, by decide⟩
  rintro ⟨segments, h⟩
  simp at h

/-- Claim C7 as stated, refuted. Along `rename_onto_claimed_path` handle `2`
stays mapped to `/q` while `/q` is mapped to handle `1`. A further
`caja_dropbox_update_file_info` for handle `2` at `/q` finds the stored name
equal and changes nothing, and `handle_shell_touch` for `/q` then resets
handle `1`, not handle `2`. -/
theorem shell_touch_resolves_to_other_handle :
    ∃ cvs out,
      run_calls caja_dropbox_instance_init rename_onto_claimed_path = .ok cvs ∧
      canonicalize_path "/q".toList = .ok (some "/q".toList) ∧
      caja_dropbox_update_file_info cvs 2 (some "/q".toList) true false false = .ok out ∧
      handle_shell_touch (some ["/q".toList]) out.cvs = .ok (some 1) := by
  refine ⟨_, _, rfl, by decide, rfl, by decide⟩

/-- Claim C7, amended. Take a cache in which handle `h`, if it is already
stored under the canonical path `q`, is the handle `q` is mapped to, and a
local path `raw` with canonical form `q`. Then `caja_dropbox_update_file_info`
for `h` returns, and afterwards `handle_shell_touch`, given a vector whose
first path `r` has the same canonical form as `raw`, resets exactly `h`; given
a path whose canonical form is no key of `filename2obj`, it resets no file. -/
theorem shell_touch_round_trip (cvs : CajaDropbox) (h : FileHandle) (raw q r : CStr)
    (rest : List CStr) (is_connected is_gone workaround : Bool)
    (hcanon : canonicalize_path raw = .ok (some q))
    (hcoh : cvs.obj2filename h = some q → cvs.filename2obj q = some h)
    (hr : canonicalize_path r = canonicalize_path raw) :
    ∃ out, caja_dropbox_update_file_info cvs h (some raw) is_connected is_gone workaround
        = .ok out ∧
      handle_shell_touch (some (r :: rest)) out.cvs = .ok (some h) ∧
      ∀ (r2 c2 : CStr) (rest2 : List CStr), canonicalize_path r2 = .ok (some c2) →
        out.cvs.filename2obj c2 = none →
        handle_shell_touch (some (r2 :: rest2)) out.cvs = .ok none := by
  have habs : ∀ (x y : CStr), canonicalize_path x = .ok (some y) → x.head? = some '/' := by
    intro x y hx
    by_contra hne
    simp [canonicalize_path, hne] at hx
  have key : (update_file_info_hashes cvs h q).filename2obj q = some h := by
    unfold update_file_info_hashes g_hash_table_lookup
    simp only
    split
    · simp [g_hash_table_insert]
    · rename_i hc
      apply hcoh
      by_contra hne
      apply hc
      cases hs : cvs.obj2filename h with
      | none => exact Or.inr rfl
      | some s =>
        left
        rw [hs] at hne
        exact ⟨by simp, hne⟩
  have touch : ∀ (s : CajaDropbox) (x y : CStr) (l : List CStr),
      canonicalize_path x = .ok (some y) →
      handle_shell_touch (some (x :: l)) s = .ok (s.filename2obj y) := by
    intro s x y l hx
    simp [handle_shell_touch, habs x y hx, hx, g_hash_table_lookup]
  unfold caja_dropbox_update_file_info
  simp only [hcanon]
  split
  · refine ⟨_, rfl, ?_, ?_⟩
    · rw [touch _ r q rest (hr.trans hcanon)]; exact congrArg _ key
    · intro r2 c2 rest2 h2 hnone
      rw [touch _ r2 c2 rest2 h2]; exact congrArg _ hnone
  · refine ⟨_, rfl, ?_, ?_⟩
    · rw [touch _ r q rest (hr.trans hcanon)]; exact congrArg _ key
    · intro r2 c2 rest2 h2 hnone
      rw [touch _ r2 c2 rest2 h2]; exact congrArg _ hnone

/-- Claim C7, amended, on an example: handle `2` is shown at `/home/./u/a.txt`
while handle `1` holds `/home/u/a.txt`; a shell touch for
`/home/u/x/../a.txt` then resets handle `2`. -/
theorem shell_touch_round_trip_witness :
    ∃ out, caja_dropbox_update_file_info cache_H1 2 (some "/home/./u/a.txt".toList)
        true false false = .ok out ∧
      handle_shell_touch (some ["/home/u/x/../a.txt".toList]) out.cvs = .ok (some 2) ∧
      ∀ (r2 c2 : CStr) (rest2 : List CStr), canonicalize_path r2 = .ok (some c2) →
        out.cvs.filename2obj c2 = none →
        handle_shell_touch (some (r2 :: rest2)) out.cvs = .ok none :=
  shell_touch_round_trip cache_H1 2 "/home/./u/a.txt".toList "/home/u/a.txt".toList
    "/home/u/x/../a.txt".toList [] true false false (by decide) (by decide) (by decide)

/-- Claim C8. In a cache whose tables are mutual inverses and in which handle
`h` is tracked under `p`, let `changed_cb` run for `h` while the current local
path of `h` has the canonical form `q`. It returns. If `q` differs from `p`,
then afterwards `h` is mapped to `q` and `q` to `h`, `p` is no key of
`filename2obj`, every other handle that held `q` is no key of `obj2filename`,
and all entries of other handles and of other paths are as before. If `q` is
`p`, the cache is unchanged. -/
theorem changed_cb_rekeys (cvs : CajaDropbox) (h : FileHandle) (p raw q : CStr)
    (hb : Bijection cvs) (hp : cvs.obj2filename h = some p)
    (hcanon : canonicalize_path raw = .ok (some q)) :
    ∃ cvs1, changed_cb h (some raw) cvs = .ok cvs1 ∧
      (q ≠ p →
        cvs1.obj2filename h = some q ∧
        cvs1.filename2obj q = some h ∧
        cvs1.filename2obj p = none ∧
        (∀ h2, h2 ≠ h → cvs.obj2filename h2 = some q → cvs1.obj2filename h2 = none) ∧
        (∀ k, k ≠ h → cvs.obj2filename k ≠ some q →
          cvs1.obj2filename k = cvs.obj2filename k) ∧
        (∀ k, k ≠ p → k ≠ q → cvs1.filename2obj k = cvs.filename2obj k)) ∧
      (q = p → cvs1 = cvs) := by
  have hinv := (hb h p).1 hp
  have hhq := hb h q
  unfold changed_cb
  simp only [hcanon, g_hash_table_lookup, hp]
  by_cases hqp : q = p
  · subst hqp
    simp
  · have hpq : ¬ p = q := fun e => hqp e.symm
    cases hf2 : cvs.filename2obj q with
    | none =>
      simp [hqp, g_hash_table_remove, g_hash_table_insert, g_hash_table_replace, hf2, hpq]
      refine ⟨?_, ?_, ?_⟩
      · intro h2 hne hc
        have := (hb h2 q).1 hc
        simp_all
      · intro k hk _
        simp [hk]
      · intro k hk1 hk2
        simp [hk1, hk2]
    | some f2 =>
      have hf2' := (hb f2 q).2 hf2
      have hf2h : ¬ h = f2 := by
        intro e; subst e; simp_all
      simp [hqp, g_hash_table_remove, g_hash_table_insert, g_hash_table_replace, hf2, hpq,
        hf2h]
      refine ⟨?_, ?_, ?_⟩
      · intro h2 hne hc
        have := (hb h2 q).1 hc
        simp_all
      · intro k hk hkq
        have : ¬ k = f2 := by
          intro e; subst e; exact hkq hf2'
        simp [hk, this]
      · intro k hk1 hk2
        simp [hk1, hk2]

/-- Claim C8 on an example: handle `1`, tracked under `/p`, is reported at
`/q/.` while handle `2` holds `/q`. -/
theorem changed_cb_rekeys_witness :
    ∃ cvs1, changed_cb 1 (some "/q/.".toList) cache_two_files = .ok cvs1 ∧
      ("/q".toList ≠ "/p".toList →
        cvs1.obj2filename 1 = some "/q".toList ∧
        cvs1.filename2obj "/q".toList = some 1 ∧
        cvs1.filename2obj "/p".toList = none ∧
        (∀ h2, h2 ≠ 1 → cache_two_files.obj2filename h2 = some "/q".toList →
          cvs1.obj2filename h2 = none) ∧
        (∀ k, k ≠ 1 → cache_two_files.obj2filename k ≠ some "/q".toList →
          cvs1.obj2filename k = cache_two_files.obj2filename k) ∧
        (∀ k, k ≠ "/p".toList → k ≠ "/q".toList →
          cvs1.filename2obj k = cache_two_files.filename2obj k)) ∧
      ("/q".toList = "/p".toList → cvs1 = cache_two_files) :=
  changed_cb_rekeys cache_two_files 1 "/p".toList "/q/.".toList "/q".toList
    bijection_cache_two_files (by decide) (by decide)

/-- Claim C10. For every cache (mutual inverses or not) and every handle `h`:
if `h` is tracked under `p`, then after `when_file_dies` the handle `h` is no
key of `obj2filename`, `p` is no key of `filename2obj`, and every other entry
of both tables is as before; if `h` is not tracked, the cache is unchanged. -/
theorem when_file_dies_removes_both_directions (cvs : CajaDropbox) (h : FileHandle) :
    (∀ p, cvs.obj2filename h = some p →
      (when_file_dies cvs h).obj2filename h = none ∧
      (when_file_dies cvs h).filename2obj p = none ∧
      (∀ k, k ≠ h → (when_file_dies cvs h).obj2filename k = cvs.obj2filename k) ∧
      (∀ k, k ≠ p → (when_file_dies cvs h).filename2obj k = cvs.filename2obj k)) ∧
    (cvs.obj2filename h = none → when_file_dies cvs h = cvs) := by
  constructor
  · intro p hp
    simp only [when_file_dies, g_hash_table_lookup, hp, g_hash_table_remove]
    refine ⟨by simp, by simp, ?_, ?_⟩
    · intro k hk; simp [hk]
    · intro k hk; simp [hk]
  · intro hn
    simp [when_file_dies, g_hash_table_lookup, hn]

/-- Claim C10 on an example: handle `1` is tracked under `/home/u/a.txt` and
handle `2` is not tracked. -/
theorem when_file_dies_removes_both_directions_witness :
    ((when_file_dies cache_H1 1).obj2filename 1 = none ∧
      (when_file_dies cache_H1 1).filename2obj "/home/u/a.txt".toList = none ∧
      (∀ k, k ≠ 1 → (when_file_dies cache_H1 1).obj2filename k = cache_H1.obj2filename k) ∧
      (∀ k, k ≠ "/home/u/a.txt".toList →
        (when_file_dies cache_H1 1).filename2obj k = cache_H1.filename2obj k)) ∧
    when_file_dies cache_H1 2 = cache_H1 :=
  ⟨(when_file_dies_removes_both_directions cache_H1 1).1 "/home/u/a.txt".toList
      (by decide),
    (when_file_dies_removes_both_directions cache_H1 2).2 (by decide)⟩

/-- Claim C11. For every cache and handle, if the URI of the file has no local
path, or has one for which `canonicalize_path` returns `NULL`,
`caja_dropbox_update_file_info` returns with both tables unchanged and without
queueing a status request; it returns `CAJA_OPERATION_COMPLETE` in the first
case and `CAJA_OPERATION_FAILED` in the second. -/
theorem update_file_info_rejected_is_atomic (cvs : CajaDropbox) (file : FileHandle) (pfilename : Option CStr)
    (is_connected is_gone workaround : Bool)
    (h : pfilename = none ∨ ∃ pf, pfilename = some pf ∧ canonicalize_path pf = .ok none) :
    ∃ out, caja_dropbox_update_file_info cvs file pfilename is_connected is_gone workaround
        = .ok out ∧
      out.cvs = cvs ∧ out.cvs.obj2filename = cvs.obj2filename ∧
      out.cvs.filename2obj = cvs.filename2obj ∧ out.request = none ∧
      out.result = (if pfilename = none then CajaOperationResult.CAJA_OPERATION_COMPLETE
        else CajaOperationResult.CAJA_OPERATION_FAILED) := by
  rcases h with h | ⟨pf, h, hc⟩
  · subst h
    exact ⟨_, rfl, rfl, rfl, rfl, rfl, rfl⟩
  · subst h
    refine ⟨⟨.CAJA_OPERATION_FAILED, cvs, none⟩, ?_, rfl, rfl, rfl, rfl, rfl⟩
    simp [caja_dropbox_update_file_info, hc]

/-- Claim C11 on an example: handle `1`, tracked under `/home/u/a.txt`, is shown
at `/../..`. -/
theorem update_file_info_rejected_is_atomic_witness :
    ∃ out, caja_dropbox_update_file_info cache_H1 1 (some "/../..".toList) true false false
        = .ok out ∧
      out.cvs = cache_H1 ∧ out.cvs.obj2filename = cache_H1.obj2filename ∧
      out.cvs.filename2obj = cache_H1.filename2obj ∧ out.request = none ∧
      out.result = (if some "/../..".toList = none then
        CajaOperationResult.CAJA_OPERATION_COMPLETE
        else CajaOperationResult.CAJA_OPERATION_FAILED) :=
  update_file_info_rejected_is_atomic cache_H1 1 (some "/../..".toList) true false false
    (Or.inr ⟨"/../..".toList, rfl, by decide⟩)

/-- Claim C12 as stated, refuted. The query of `reply_cancelled` was cancelled
by `caja_dropbox_cancel_update`; with the workaround flag off,
`caja_dropbox_finish_file_info_command` still calls
`caja_info_provider_update_complete_invoke`, with `CAJA_OPERATION_FAILED`. -/
theorem finish_invokes_update_complete_when_cancelled :
    reply_cancelled.dfic.cancelled = true ∧
    caja_dropbox_finish_file_info_command reply_cancelled false false =
      .ok { added := [], result := .CAJA_OPERATION_FAILED,
            update_complete := some .CAJA_OPERATION_FAILED } := by
  refine ⟨by decide, by decide⟩

/-- Claim C12, amended. For every command cancelled by
`caja_dropbox_cancel_update` and whatever the three responses contain,
`caja_dropbox_finish_file_info_command` adds no emblem and leaves `result` at
`CAJA_OPERATION_FAILED`; it hands that result to the completion callback when
`dropbox_use_operation_in_progress_workaround` is off and does not call the
callback when the flag is on. -/
theorem finish_cancelled_completes_with_failed (dfic : DropboxFileInfoCommand)
    (file_status_response folder_tag_response emblems_response :
      Option (GHashTable CStr (List CStr)))
    (isdir workaround : Bool) :
    caja_dropbox_finish_file_info_command
      { dfic := caja_dropbox_cancel_update dfic
        file_status_response := file_status_response
        folder_tag_response := folder_tag_response
        emblems_response := emblems_response } isdir workaround =
      .ok { added := []
            result := .CAJA_OPERATION_FAILED
            update_complete :=
              if workaround = false then some .CAJA_OPERATION_FAILED else none } := by
  simp [caja_dropbox_finish_file_info_command, finish_emblems, caja_dropbox_cancel_update]

/-- Claim C13. For every response, directory or not, if the `cancelled` flag of
the command is set then `caja_dropbox_finish_file_info_command` returns without
adding an emblem; and `caja_dropbox_cancel_update` called twice leaves the
command as one call does. -/
theorem cancelled_finish_adds_no_emblem :
    (∀ (dficr : DropboxFileInfoCommandResponse) (isdir workaround : Bool),
      dficr.dfic.cancelled = true →
      ∃ out, caja_dropbox_finish_file_info_command dficr isdir workaround = .ok out ∧
        out.added = []) ∧
    (∀ dfic : DropboxFileInfoCommand,
      caja_dropbox_cancel_update (caja_dropbox_cancel_update dfic) =
        caja_dropbox_cancel_update dfic) := by
  constructor
  · intro dficr isdir workaround hc
    exact ⟨_, by simp [caja_dropbox_finish_file_info_command, finish_emblems, hc]; rfl, rfl⟩
  · intro dfic
    rfl

/-- Claim C13 on an example: a cancelled query whose reply holds status, tag
and emblems. -/
theorem cancelled_finish_adds_no_emblem_witness :
    (∃ out, caja_dropbox_finish_file_info_command reply_cancelled true false = .ok out ∧
      out.added = []) ∧
    caja_dropbox_cancel_update (caja_dropbox_cancel_update reply_with_emblems.dfic) =
      caja_dropbox_cancel_update reply_with_emblems.dfic :=
  ⟨cancelled_finish_adds_no_emblem.1 reply_cancelled true false (by decide), cancelled_finish_adds_no_emblem.2 reply_with_emblems.dfic⟩

/-- Claim C14. For every response to a query that was not cancelled whose
emblems response holds an `emblems` list, the emblems added are the entries of
that list that are not empty, in list order, nothing else is added whatever the
status and tag responses hold and whether the file is a directory or not, and
the result is `CAJA_OPERATION_COMPLETE`. -/
theorem finish_uses_emblems_list (dficr : DropboxFileInfoCommandResponse) (isdir workaround : Bool)
    (t : GHashTable CStr (List CStr)) (list : List CStr)
    (hc : dficr.dfic.cancelled = false)
    (he : dficr.emblems_response = some t)
    (hl : g_hash_table_lookup t "emblems".toList = some list) :
    caja_dropbox_finish_file_info_command dficr isdir workaround =
      .ok { added := list.filter (fun e => e ≠ [])
            result := .CAJA_OPERATION_COMPLETE
            update_complete :=
              if workaround = false then some .CAJA_OPERATION_COMPLETE else none } := by
  simp only [String.toList] at hl
  simp [caja_dropbox_finish_file_info_command, finish_emblems, hc, he, hl]

/-- Claim C14 on an example: the list `x`, empty, `y` on a directory, with
status and tag responses present. -/
theorem finish_uses_emblems_list_witness :
    caja_dropbox_finish_file_info_command reply_with_emblems true false =
      .ok { added := ["x".toList, [], "y".toList].filter (fun e => e ≠ [])
            result := .CAJA_OPERATION_COMPLETE
            update_complete :=
              if false = false then some .CAJA_OPERATION_COMPLETE else none } :=
  finish_uses_emblems_list reply_with_emblems true false
    (response_with "emblems".toList ["x".toList, [], "y".toList])
    ["x".toList, [], "y".toList] rfl rfl (by decide)

/-- Claim C15. For every response to a query that was not cancelled, without an
`emblems` list, on a file that is not a directory, with a status list whose
first entry is `s`: the emblems added are `dropbox-uptodate` alone for
`up to date`, `dropbox-syncing` alone for `syncing`, `dropbox-unsyncable` alone
for `unsyncable` and none for any other `s`, whatever the tag response is, and
the result is `CAJA_OPERATION_COMPLETE`. -/
theorem finish_status_emblem_on_file (dficr : DropboxFileInfoCommandResponse) (workaround : Bool)
    (ts : GHashTable CStr (List CStr)) (s : CStr) (rest : List CStr)
    (hc : dficr.dfic.cancelled = false)
    (he : ∀ t, dficr.emblems_response = some t →
      g_hash_table_lookup t "emblems".toList = none)
    (hs : dficr.file_status_response = some ts)
    (hl : g_hash_table_lookup ts "status".toList = some (s :: rest)) :
    ∃ out, caja_dropbox_finish_file_info_command dficr false workaround = .ok out ∧
      out.added =
        (if s = "up to date".toList then ["dropbox-uptodate".toList]
         else if s = "syncing".toList then ["dropbox-syncing".toList]
         else if s = "unsyncable".toList then ["dropbox-unsyncable".toList]
         else []) ∧
      out.result = .CAJA_OPERATION_COMPLETE ∧
      out.update_complete =
        (if workaround = false then some .CAJA_OPERATION_COMPLETE else none) := by
  have hem : dficr.emblems_response.bind
      (fun t => g_hash_table_lookup t "emblems".toList) = none := by
    cases h : dficr.emblems_response with
    | none => rfl
    | some t => exact he t h
  have hst : status_emblem s =
      (if s = "up to date".toList then some "dropbox-uptodate".toList
       else if s = "syncing".toList then some "dropbox-syncing".toList
       else if s = "unsyncable".toList then some "dropbox-unsyncable".toList
       else none) := by
    unfold status_emblem emblem_code emblems
    split_ifs <;> simp_all
  refine ⟨⟨(status_emblem s).toList, .CAJA_OPERATION_COMPLETE,
    if workaround = false then some .CAJA_OPERATION_COMPLETE else none⟩, ?_, ?_, rfl, rfl⟩
  · unfold caja_dropbox_finish_file_info_command finish_emblems
    rw [if_pos hc, hem, hs]
    simp only [Option.some_bind, hl]
    simp
  · rw [hst]
    split_ifs <;> rfl

/-- Claim C15 on its scenario: the reply `status: up to date` on a regular
file. -/
theorem finish_status_emblem_on_file_witness :
    ∃ out, caja_dropbox_finish_file_info_command reply_up_to_date false false = .ok out ∧
      out.added =
        (if "up to date".toList = "up to date".toList then ["dropbox-uptodate".toList]
         else if "up to date".toList = "syncing".toList then ["dropbox-syncing".toList]
         else if "up to date".toList = "unsyncable".toList then
           ["dropbox-unsyncable".toList]
         else []) ∧
      out.result = .CAJA_OPERATION_COMPLETE ∧
      out.update_complete =
        (if false = false then some .CAJA_OPERATION_COMPLETE else none) :=
  finish_status_emblem_on_file reply_up_to_date false
    (response_with "status".toList ["up to date".toList]) "up to date".toList [] rfl
    (fun t h => by cases h) rfl (by decide)

/-- Claim C16. For every response to a query that was not cancelled, without an
`emblems` list, on a directory, with the folder tag response absent: whatever
the status response holds, no emblem is added and the result is
`CAJA_OPERATION_FAILED`. -/
theorem finish_directory_without_tag_fails (dficr : DropboxFileInfoCommandResponse) (workaround : Bool)
    (hc : dficr.dfic.cancelled = false)
    (he : ∀ t, dficr.emblems_response = some t →
      g_hash_table_lookup t "emblems".toList = none)
    (ht : dficr.folder_tag_response = none) :
    caja_dropbox_finish_file_info_command dficr true workaround =
      .ok { added := []
            result := .CAJA_OPERATION_FAILED
            update_complete :=
              if workaround = false then some .CAJA_OPERATION_FAILED else none } := by
  have hem : dficr.emblems_response.bind
      (fun t => g_hash_table_lookup t "emblems".toList) = none := by
    cases h : dficr.emblems_response with
    | none => rfl
    | some t => exact he t h
  unfold caja_dropbox_finish_file_info_command finish_emblems
  rw [if_pos hc, hem, ht]
  cases dficr.file_status_response.bind
      (fun t => g_hash_table_lookup t "status".toList) <;> simp

/-- Claim C16 on its scenario: the reply `status: syncing` without a tag
response, on a directory. -/
theorem finish_directory_without_tag_fails_witness :
    caja_dropbox_finish_file_info_command reply_syncing_no_tag true false =
      .ok { added := []
            result := .CAJA_OPERATION_FAILED
            update_complete :=
              if false = false then some .CAJA_OPERATION_FAILED else none } :=
  finish_directory_without_tag_fails reply_syncing_no_tag false rfl (fun t h => by cases h) rfl

/-- Claim C17. Take a response to a query that was not cancelled, without an
`emblems` list, with a status list whose first entry is `s`. If the file is a
directory and the tag response holds an empty `tag` vector, the function reads
`tag[0]` and stops at the `NULL` it passes to `strcmp`, having added nothing.
Otherwise it returns, and the emblems added are a tag part followed by the
status part: the tag part has at most one emblem, and it is the emblem `e`
exactly when the file is a directory and the tag response holds a `tag` list
whose first entry is `public`, `shared`, `photos` or `sandbox`, with `e` being
`web`, `people`, `photos` or `star` respectively. -/
theorem finish_tag_emblem (dficr : DropboxFileInfoCommandResponse) (isdir workaround : Bool)
    (ts : GHashTable CStr (List CStr)) (s : CStr) (rest : List CStr)
    (hc : dficr.dfic.cancelled = false)
    (he : ∀ t, dficr.emblems_response = some t →
      g_hash_table_lookup t "emblems".toList = none)
    (hs : dficr.file_status_response = some ts)
    (hl : g_hash_table_lookup ts "status".toList = some (s :: rest)) :
    (∀ tt, isdir = true → dficr.folder_tag_response = some tt →
      g_hash_table_lookup tt "tag".toList = some [] →
      caja_dropbox_finish_file_info_command dficr isdir workaround =
        .error .null_dereference) ∧
    ((∀ tt, isdir = true → dficr.folder_tag_response = some tt →
        g_hash_table_lookup tt "tag".toList ≠ some []) →
      ∃ out tag_added,
        caja_dropbox_finish_file_info_command dficr isdir workaround = .ok out ∧
        out.added = tag_added ++
          (if isdir = true ∧ dficr.folder_tag_response.isSome = false then []
           else (status_emblem s).toList) ∧
        tag_added.length ≤ 1 ∧
        ∀ e, tag_added = [e] ↔
          (isdir = true ∧ ∃ tt t0 trest, dficr.folder_tag_response = some tt ∧
            g_hash_table_lookup tt "tag".toList = some (t0 :: trest) ∧
            ((t0 = "public".toList ∧ e = "web".toList) ∨
             (t0 = "shared".toList ∧ e = "people".toList) ∨
             (t0 = "photos".toList ∧ e = "photos".toList) ∨
             (t0 = "sandbox".toList ∧ e = "star".toList)))) := by
  have hem : dficr.emblems_response.bind
      (fun t => g_hash_table_lookup t "emblems".toList) = none := by
    cases h : dficr.emblems_response with
    | none => rfl
    | some t => exact he t h
  have hst : dficr.file_status_response.bind
      (fun t => g_hash_table_lookup t "status".toList) = some (s :: rest) := by
    rw [hs]; exact hl
  unfold caja_dropbox_finish_file_info_command
  rw [finish_emblems_status dficr isdir s rest hc hem hst]
  cases isdir with
  | false =>
    refine ⟨fun tt h => (by cases h), fun _ => ⟨_, [], rfl, ?_, Nat.zero_le _, ?_⟩⟩
    · simp
    · intro e
      constructor
      · intro h; cases h
      · rintro ⟨h, _⟩; cases h
  | true =>
    cases hft : dficr.folder_tag_response with
    | none =>
      refine ⟨fun tt _ h => (by cases h), fun _ => ⟨_, [], rfl, ?_, Nat.zero_le _, ?_⟩⟩
      · simp
      · intro e
        constructor
        · intro h; cases h
        · rintro ⟨_, tt, t0, trest, h, _⟩; cases h
    | some tt =>
      dsimp only
      cases htag : g_hash_table_lookup tt "tag".toList with
      | none =>
        refine ⟨?_, fun _ => ⟨_, [], rfl, ?_, Nat.zero_le _, ?_⟩⟩
        · intro tt2 _ h2 h3
          cases h2
          rw [htag] at h3
          cases h3
        · simp
        · intro e
          constructor
          · intro h; cases h
          · rintro ⟨_, tt2, t0, trest, h2, h3, _⟩
            cases h2
            rw [htag] at h3
            cases h3
      | some tags =>
        cases tags with
        | nil =>
          exact ⟨fun _ _ _ _ => rfl, fun h => absurd htag (h tt rfl rfl)⟩
        | cons t0 trest =>
          refine ⟨?_, fun _ => ⟨_, (tag_emblem t0).toList, rfl, ?_, ?_, ?_⟩⟩
          · intro tt2 _ h2 h3
            cases h2
            rw [htag] at h3
            cases h3
          · simp
          · cases tag_emblem t0 <;> simp
          · intro e
            constructor
            · intro h
              refine ⟨rfl, tt, t0, trest, rfl, htag, (tag_emblem_eq_some_iff t0 e).1 ?_⟩
              cases hte : tag_emblem t0 with
              | none => rw [hte] at h; cases h
              | some e2 =>
                rw [hte] at h
                simp only [Option.toList, List.cons.injEq, and_true] at h
                rw [h]
            · rintro ⟨_, tt2, t02, trest2, h2, h3, h4⟩
              cases h2
              rw [htag] at h3
              cases h3
              rw [(tag_emblem_eq_some_iff t0 e).2 h4]
              rfl

/-- Claim C17 on an example: the reply `status: syncing`, `tag: shared` on a
directory. -/
theorem finish_tag_emblem_witness :
    (∀ tt, true = true → reply_syncing_shared.folder_tag_response = some tt →
      g_hash_table_lookup tt "tag".toList = some [] →
      caja_dropbox_finish_file_info_command reply_syncing_shared true false =
        .error .null_dereference) ∧
    ((∀ tt, true = true → reply_syncing_shared.folder_tag_response = some tt →
        g_hash_table_lookup tt "tag".toList ≠ some []) →
      ∃ out tag_added,
        caja_dropbox_finish_file_info_command reply_syncing_shared true false = .ok out ∧
        out.added = tag_added ++
          (if true = true ∧ reply_syncing_shared.folder_tag_response.isSome = false then []
           else (status_emblem "syncing".toList).toList) ∧
        tag_added.length ≤ 1 ∧
        ∀ e, tag_added = [e] ↔
          (true = true ∧ ∃ tt t0 trest, reply_syncing_shared.folder_tag_response = some tt ∧
            g_hash_table_lookup tt "tag".toList = some (t0 :: trest) ∧
            ((t0 = "public".toList ∧ e = "web".toList) ∨
             (t0 = "shared".toList ∧ e = "people".toList) ∨
             (t0 = "photos".toList ∧ e = "photos".toList) ∨
             (t0 = "sandbox".toList ∧ e = "star".toList)))) :=
  finish_tag_emblem reply_syncing_shared true false
    (response_with "status".toList ["syncing".toList]) "syncing".toList [] rfl
    (fun t h => by cases h) rfl (by decide)

/-- Claim C18, at the input where it fails. `g_strsplit` is called with the
limit 3, so the entry `a~b~c~d` gives the three fields `a`, `b` and `c~d`, the
test on `option_info[3]` never fires, and the entry is not skipped: it yields
an action item with the verb `c~d` and adds 1 to the count, where the list
without it yields nothing. -/
theorem parse_menu_keeps_entry_with_four_fields :
    g_strsplit entry_four_fields '~' 3 = ["a".toList, "b".toList, "c~d".toList] ∧
    caja_dropbox_parse_menu [entry_four_fields] root_action_string =
      some { items := [CajaMenuItem.action "CajaDropbox::c~d".toList "a".toList "b".toList
                        "c~d".toList true]
             ret := 1 } ∧
    caja_dropbox_parse_menu [] root_action_string = some { items := [], ret := 0 } := by
  refine ⟨by decide, rfl, rfl⟩

/-- Claim C19. For every option list and action string,
`caja_dropbox_parse_menu` returns, and the value returned is the number of
action items appended to the menu at all nesting depths. -/
theorem parse_menu_returns_leaf_count (options : List CStr) (old_action_string : CStr) :
    ∃ r, caja_dropbox_parse_menu options old_action_string = some r ∧
      r.ret = (leaf_count r.items : Int) := by
  obtain ⟨r, hr⟩ := caja_dropbox_parse_menu_total (longest options) options
    old_action_string (Nat.le_refl _)
  refine ⟨r, hr, ?_⟩
  refine parse_menu_outcome_induction (fun _ items ret => ret = (leaf_count items : Int))
    ?_ ?_ ?_ ?_ (longest options) options old_action_string r (Nat.le_refl _) hr
  · intro _; simp [leaf_count]
  · intro _ i1 r1 i2 r2 h1 h2
    rw [leaf_count_append, h1, h2]
    simp
  · intro _ _ _ _ _; simp [leaf_count, leaf_count_item]
  · intro _ _ items ret h
    simp [leaf_count, leaf_count_item, h]

/-- Claim C19 on its scenario: one entry whose decoded payload is
`Edit~e~edit|View~v~view` yields one submenu with two action items, and 2 is
returned. -/
theorem parse_menu_returns_leaf_count_witness :
    (∃ r, caja_dropbox_parse_menu [entry_open] root_action_string = some r ∧
      r.ret = (leaf_count r.items : Int)) ∧
    decode_in_place "Edit%7Ee%7Eedit|View%7Ev%7Eview".toList =
      "Edit~e~edit|View~v~view".toList ∧
    caja_dropbox_parse_menu [entry_open] root_action_string =
      some { items :=
               [CajaMenuItem.submenu "CajaDropbox::Open::".toList "Open".toList []
                 [CajaMenuItem.action "CajaDropbox::Open::edit".toList "Edit".toList
                    "e".toList "edit".toList true,
                  CajaMenuItem.action "CajaDropbox::Open::view".toList "View".toList
                    "v".toList "view".toList true]]
             ret := 2 } :=
  ⟨parse_menu_returns_leaf_count [entry_open] root_action_string, by decide, rfl⟩

/-- Claim C20. First, for every entry with three fields, at any place of an
option list: if its decoded payload contains `~`, the entry yields a submenu
item whose label is the decoded label, whose tip is empty and whose items are
those of the call on the decoded payload split at `|`, with the decoded label
and `::` appended to the action string, and the verb plays no part; otherwise
it yields an action item whose tip is the decoded payload, whose stored verb is
the decoded verb and whose name is the action string followed by that verb.
Second, for every parse started with `CajaDropbox::`, the name of an action
item below the submenus labelled `L1`, ..., `Lk` and with the stored verb `v`
is `CajaDropbox::`, then each `Li` followed by `::`, then `v`. -/
theorem parse_menu_submenu_rule_and_action_path :
    (∀ (before after : List CStr) (entry name inner verb old : CStr),
      g_strsplit entry '~' 3 = [name, inner, verb] →
      ∃ rb ra item ret,
        caja_dropbox_parse_menu before old = some rb ∧
        caja_dropbox_parse_menu after old = some ra ∧
        caja_dropbox_parse_menu (before ++ entry :: after) old =
          some { items := rb.items ++ item :: ra.items, ret := rb.ret + (ret + ra.ret) } ∧
        ('~' ∈ decode_in_place inner →
          ∃ sub,
            caja_dropbox_parse_menu (g_strsplit (decode_in_place inner) '|' (-1))
              (old ++ decode_in_place name ++ "::".toList) = some sub ∧
            item = CajaMenuItem.submenu (old ++ decode_in_place name ++ "::".toList)
              (decode_in_place name) [] sub.items ∧
            ret = sub.ret) ∧
        ('~' ∉ decode_in_place inner →
          ∃ label sensitive,
            item = CajaMenuItem.action (old ++ decode_in_place verb) label
              (decode_in_place inner) (decode_in_place verb) sensitive ∧
            ret = 1)) ∧
    (∀ (options : List CStr) (r : ParseOutcome),
      caja_dropbox_parse_menu options root_action_string = some r →
      ∀ (labels : List CStr) (name label tip verb : CStr) (sensitive : Bool),
        Reaches r.items labels (CajaMenuItem.action name label tip verb sensitive) →
        name = "CajaDropbox::".toList ++
          (labels.map (fun l => l ++ "::".toList)).flatten ++ verb) := by
  constructor
  · intro before after entry name inner verb old hsplit
    obtain ⟨rb, hb⟩ := caja_dropbox_parse_menu_total _ before old (Nat.le_refl _)
    obtain ⟨ra, ha⟩ := caja_dropbox_parse_menu_total _ after old (Nat.le_refl _)
    by_cases hsub : '~' ∈ decode_in_place inner
    · obtain ⟨sub, hs⟩ := caja_dropbox_parse_menu_total _
        (g_strsplit (decode_in_place inner) '|' (-1))
        (old ++ decode_in_place name ++ "::".toList) (Nat.le_refl _)
      refine ⟨rb, ra, _, sub.ret, hb, ha, parse_menu_at_entry before after entry old _ _
        rb ra hb ha ?_, fun _ => ⟨sub, hs, rfl, rfl⟩, fun h => absurd hsub h⟩
      unfold parse_menu_option
      rw [hsplit]
      simp only [if_pos hsub, hs]
    · refine ⟨rb, ra,
        CajaMenuItem.action (old ++ decode_in_place verb)
          (if (decode_in_place name).head? = some '!' then (decode_in_place name).tail
           else decode_in_place name)
          (decode_in_place inner) (decode_in_place verb)
          (!decide ((decode_in_place name).head? = some '!')),
        1, hb, ha, parse_menu_at_entry before after entry old _ _
        rb ra hb ha ?_, fun h => absurd h hsub, fun _ => ⟨_, _, rfl, rfl⟩⟩
      unfold parse_menu_option
      rw [hsplit]
      simp only [if_neg hsub]
      simp
  · intro options r h labels name label tip verb sensitive hreach
    exact parse_menu_action_path options root_action_string r h labels name label tip verb
      sensitive hreach

/-- Claim C20 on an example: the entry `entry_open` yields the submenu `Open`,
and the action item `View` below it is named `CajaDropbox::Open::view`. -/
theorem parse_menu_submenu_rule_and_action_path_witness :
    (∃ rb ra item ret,
        caja_dropbox_parse_menu [] root_action_string = some rb ∧
        caja_dropbox_parse_menu [] root_action_string = some ra ∧
        caja_dropbox_parse_menu ([] ++ entry_open :: []) root_action_string =
          some { items := rb.items ++ item :: ra.items, ret := rb.ret + (ret + ra.ret) } ∧
        ('~' ∈ decode_in_place "Edit%7Ee%7Eedit|View%7Ev%7Eview".toList →
          ∃ sub,
            caja_dropbox_parse_menu
              (g_strsplit (decode_in_place "Edit%7Ee%7Eedit|View%7Ev%7Eview".toList) '|' (-1))
              (root_action_string ++ decode_in_place "Open".toList ++ "::".toList)
              = some sub ∧
            item = CajaMenuItem.submenu
              (root_action_string ++ decode_in_place "Open".toList ++ "::".toList)
              (decode_in_place "Open".toList) [] sub.items ∧
            ret = sub.ret) ∧
        ('~' ∉ decode_in_place "Edit%7Ee%7Eedit|View%7Ev%7Eview".toList →
          ∃ label sensitive,
            item = CajaMenuItem.action (root_action_string ++ decode_in_place "open".toList)
              label (decode_in_place "Edit%7Ee%7Eedit|View%7Ev%7Eview".toList)
              (decode_in_place "open".toList) sensitive ∧
            ret = 1)) ∧
    "CajaDropbox::Open::view".toList = "CajaDropbox::".toList ++
      (["Open".toList].map (fun l => l ++ "::".toList)).flatten ++ "view".toList :=
  ⟨parse_menu_submenu_rule_and_action_path.1 [] [] entry_open "Open".toList "Edit%7Ee%7Eedit|View%7Ev%7Eview".toList
      "open".toList root_action_string (by decide),
    parse_menu_submenu_rule_and_action_path.2 [entry_open]
      { items :=
          [CajaMenuItem.submenu "CajaDropbox::Open::".toList "Open".toList []
            [CajaMenuItem.action "CajaDropbox::Open::edit".toList "Edit".toList
               "e".toList "edit".toList true,
             CajaMenuItem.action "CajaDropbox::Open::view".toList "View".toList
               "v".toList "view".toList true]]
        ret := 2 }
      rfl ["Open".toList] "CajaDropbox::Open::view".toList "View".toList "v".toList
      "view".toList true
      (Reaches.down _ _ _ _ _ _ _ (List.mem_singleton.2 rfl)
        (Reaches.here _ _ _ _ _ _ (List.mem_cons_of_mem _ (List.mem_singleton.2 rfl))))⟩

/-- Claim C21. For every field `s` (a C string, so without `NUL`) in which every
`%` is followed by two hexadecimal digits and no escape is `%00`, the in-place
call `GhettoURLDecode (s, s, strlen (s))` leaves in `s` the reference decoding:
each `%XY` replaced by the character with the code `16 * value X + value Y`,
every other character kept. A field without any `%` is left as it is. -/
theorem decode_in_place_is_reference_decoding (s : CStr) (hs : Char.ofNat 0 ∉ s) (hw : well_escaped s = true)
    (he : has_nul_escape s = false) :
    decode_in_place s = reference_decode s ∧ ('%' ∉ s → decode_in_place s = s) := by
  have hnul := reference_decode_no_nul s hw hs he
  have htake : ∀ l : CStr, Char.ofNat 0 ∉ l →
      l.takeWhile (fun c => decide (c ≠ Char.ofNat 0)) = l := by
    intro l hl
    rw [List.takeWhile_eq_self_iff]
    intro c hc
    simp only [decide_eq_true_eq]
    intro e
    exact hl (e ▸ hc)
  have main : decode_in_place s = reference_decode s := by
    by_cases hp : '%' ∈ s
    · have hlt := reference_decode_length_lt s hw hp
      have := GhettoURLDecode_from_fits (s.length : Int) s [] hw
        (by simp only [List.length_nil, Nat.zero_add]; omega)
      unfold decode_in_place GhettoURLDecode
      rw [this]
      simp only [List.nil_append, if_true]
      exact htake _ hnul
    · have := GhettoURLDecode_from_plain (s.length : Int) s [] hp (by simp)
      unfold decode_in_place GhettoURLDecode
      rw [this]
      simp only [List.nil_append, Bool.false_eq_true, if_false, List.drop_length,
        List.append_nil]
      rw [reference_decode_of_no_percent s hp]
      exact htake _ hs
  exact ⟨main, fun hp => by rw [main, reference_decode_of_no_percent s hp]⟩

/-- Claim C21 on an example: a field with an upper case and a lower case
escape. -/
theorem decode_in_place_is_reference_decoding_witness :
    decode_in_place "Edit%7Ee%7eedit".toList = reference_decode "Edit%7Ee%7eedit".toList ∧
    ('%' ∉ "Edit%7Ee%7eedit".toList →
      decode_in_place "Edit%7Ee%7eedit".toList = "Edit%7Ee%7eedit".toList) :=
  decode_in_place_is_reference_decoding "Edit%7Ee%7eedit".toList (by decide) (by decide) (by decide)

/-- Claim C22. For every entry with three fields whose decoded payload holds no
`~`, at any place of an option list, the entry yields an action item; if the
decoded label begins with `!`, the label of the item is the decoded label
without that first character and the item is made insensitive; otherwise the
label is the decoded label and the item stays sensitive. -/
theorem parse_menu_grayed_out_label (before after : List CStr) (entry name inner verb old : CStr)
    (hsplit : g_strsplit entry '~' 3 = [name, inner, verb])
    (hleaf : '~' ∉ decode_in_place inner) :
    ∃ rb ra label sensitive,
      caja_dropbox_parse_menu before old = some rb ∧
      caja_dropbox_parse_menu after old = some ra ∧
      caja_dropbox_parse_menu (before ++ entry :: after) old =
        some { items := rb.items ++
                 CajaMenuItem.action (old ++ decode_in_place verb) label
                   (decode_in_place inner) (decode_in_place verb) sensitive :: ra.items
               ret := rb.ret + (1 + ra.ret) } ∧
      ((decode_in_place name).head? = some '!' →
        '!' :: label = decode_in_place name ∧ label = (decode_in_place name).tail ∧
        sensitive = false) ∧
      ((decode_in_place name).head? ≠ some '!' →
        label = decode_in_place name ∧ sensitive = true) := by
  obtain ⟨rb, hb⟩ := caja_dropbox_parse_menu_total _ before old (Nat.le_refl _)
  obtain ⟨ra, ha⟩ := caja_dropbox_parse_menu_total _ after old (Nat.le_refl _)
  refine ⟨rb, ra,
    (if (decode_in_place name).head? = some '!' then (decode_in_place name).tail
     else decode_in_place name),
    (!decide ((decode_in_place name).head? = some '!')), hb, ha,
    parse_menu_at_entry before after entry old _ _ rb ra hb ha ?_, ?_, ?_⟩
  · unfold parse_menu_option
    rw [hsplit]
    simp only [if_neg hleaf]
    simp
  · intro h
    refine ⟨?_, by rw [if_pos h], by simp [h]⟩
    rw [if_pos h]
    cases hd : decode_in_place name with
    | nil => rw [hd] at h; cases h
    | cons c r =>
      rw [hd] at h
      simp only [List.head?_cons, Option.some.injEq] at h
      rw [h]
      rfl
  · intro h
    exact ⟨by rw [if_neg h], by simp [h]⟩

/-- Claim C22 on an example: the entry `entry_gray`, whose label begins with
`!`. -/
theorem parse_menu_grayed_out_label_witness :
    ∃ rb ra label sensitive,
      caja_dropbox_parse_menu [] root_action_string = some rb ∧
      caja_dropbox_parse_menu [] root_action_string = some ra ∧
      caja_dropbox_parse_menu ([] ++ entry_gray :: []) root_action_string =
        some { items := rb.items ++
                 CajaMenuItem.action (root_action_string ++ decode_in_place "pause".toList)
                   label (decode_in_place "Not%20available".toList)
                   (decode_in_place "pause".toList) sensitive :: ra.items
               ret := rb.ret + (1 + ra.ret) } ∧
      ((decode_in_place "!Pause%20sync".toList).head? = some '!' →
        '!' :: label = decode_in_place "!Pause%20sync".toList ∧
        label = (decode_in_place "!Pause%20sync".toList).tail ∧
        sensitive = false) ∧
      ((decode_in_place "!Pause%20sync".toList).head? ≠ some '!' →
        label = decode_in_place "!Pause%20sync".toList ∧ sensitive = true) :=
  parse_menu_grayed_out_label [] [] entry_gray "!Pause%20sync".toList "Not%20available".toList "pause".toList
    root_action_string (by decide) (by decide)


/-- Claim C23. For every input string and every bound `n ≥ 0`,
`GhettoURLDecode` stores at most `n` characters, the terminator included. If
every `%` of the input is followed by two hexadecimal digits and the decoded
length is less than `n`, it returns the decoded length, having stored the
decoded characters and then the terminator. In every other case it returns
`-1` and stores no terminator. -/
theorem GhettoURLDecode_return_contract (input : CStr) (n : Int) (hn : 0 ≤ n) :
    ((GhettoURLDecode input n).written.length : Int) +
        (if (GhettoURLDecode input n).terminated = true then 1 else 0) ≤ n ∧
    ((well_escaped input = true ∧ ((reference_decode input).length : Int) < n) →
      (GhettoURLDecode input n).ret = ((reference_decode input).length : Int) ∧
      (GhettoURLDecode input n).written = reference_decode input ∧
      (GhettoURLDecode input n).terminated = true) ∧
    (¬ (well_escaped input = true ∧ ((reference_decode input).length : Int) < n) →
      (GhettoURLDecode input n).ret = -1 ∧
      (GhettoURLDecode input n).terminated = false) := by
  unfold GhettoURLDecode
  obtain ⟨h1, h2, h3⟩ := GhettoURLDecode_from_outcome n input []
  refine ⟨?_, ?_, ?_⟩
  · cases ht : (GhettoURLDecode_from n input []).terminated with
    | false =>
      have := h3 (by simpa using hn)
      simp only [Bool.false_eq_true, if_false]
      omega
    | true =>
      have := (h2 ht).2
      simp only [if_true]
      omega
  · rintro ⟨hw, hl⟩
    rw [GhettoURLDecode_from_fits n input [] hw
      (by simp only [List.length_nil, Nat.zero_add]; exact hl)]
    simp
  · intro hnot
    have ht : (GhettoURLDecode_from n input []).terminated = false := by
      apply GhettoURLDecode_from_rejects
      cases hw : well_escaped input with
      | false => exact Or.inl rfl
      | true =>
        right
        simp only [List.length_nil, Nat.zero_add]
        have : ¬ ((reference_decode input).length : Int) < n := fun hl => hnot ⟨hw, hl⟩
        omega
    exact ⟨h1 ht, ht⟩

/-- Claim C23 on an example: `a%41` with room for three characters. -/
theorem GhettoURLDecode_return_contract_witness :
    ((GhettoURLDecode "a%41".toList 3).written.length : Int) +
        (if (GhettoURLDecode "a%41".toList 3).terminated = true then 1 else 0) ≤ 3 ∧
    ((well_escaped "a%41".toList = true ∧
        ((reference_decode "a%41".toList).length : Int) < 3) →
      (GhettoURLDecode "a%41".toList 3).ret = ((reference_decode "a%41".toList).length : Int) ∧
      (GhettoURLDecode "a%41".toList 3).written = reference_decode "a%41".toList ∧
      (GhettoURLDecode "a%41".toList 3).terminated = true) ∧
    (¬ (well_escaped "a%41".toList = true ∧
        ((reference_decode "a%41".toList).length : Int) < 3) →
      (GhettoURLDecode "a%41".toList 3).ret = -1 ∧
      (GhettoURLDecode "a%41".toList 3).terminated = false) :=
  GhettoURLDecode_return_contract "a%41".toList 3 (by decide)


/-- Claim C24. Decoding in place never lengthens a field. The payload of an
entry with three fields is at least two characters shorter than the entry, and
every piece of its decoded payload split at `|` is shorter than the entry. So
for every option list `caja_dropbox_parse_menu` returns, and it does so with
the nesting of calls limited to the length of the longest entry plus one, or
to any larger depth, with the same outcome. -/
theorem parse_menu_terminates :
    (∀ field : CStr, (decode_in_place field).length ≤ field.length) ∧
    (∀ (entry name inner verb : CStr), g_strsplit entry '~' 3 = [name, inner, verb] →
      inner.length + 2 ≤ entry.length ∧
      ∀ piece ∈ g_strsplit (decode_in_place inner) '|' (-1),
        piece.length < entry.length) ∧
    (∀ (options : List CStr) (old_action_string : CStr),
      ∃ r, caja_dropbox_parse_menu options old_action_string = some r ∧
        ∀ depth, longest options < depth →
          parse_menu_depth depth options old_action_string = some r) := by
  refine ⟨decode_in_place_length_le, ?_, ?_⟩
  · intro entry name inner verb hsplit
    have h3 := g_strsplit_three_lengths entry name inner verb hsplit
    refine ⟨by omega, fun piece hp => ?_⟩
    have h1 := length_le_longest _ piece hp
    have h2 := longest_suboptions_lt entry name inner verb hsplit
    omega
  · intro options old
    obtain ⟨r, hr⟩ := caja_dropbox_parse_menu_total _ options old (Nat.le_refl _)
    refine ⟨r, hr, fun depth hd => ?_⟩
    rw [← hr]
    exact parse_menu_depth_independent depth (longest options + 1) options old hd
      (Nat.lt_succ_self _)

/-- Claim C24 on an example: the entry `entry_open` with its nested payload. -/
theorem parse_menu_terminates_witness :
    (decode_in_place "Edit%7Ee%7Eedit|View%7Ev%7Eview".toList).length ≤
      "Edit%7Ee%7Eedit|View%7Ev%7Eview".toList.length ∧
    ("Edit%7Ee%7Eedit|View%7Ev%7Eview".toList.length + 2 ≤ entry_open.length ∧
      ∀ piece ∈ g_strsplit (decode_in_place "Edit%7Ee%7Eedit|View%7Ev%7Eview".toList) '|' (-1),
        piece.length < entry_open.length) ∧
    (∃ r, caja_dropbox_parse_menu [entry_open] root_action_string = some r ∧
      ∀ depth, longest [entry_open] < depth →
        parse_menu_depth depth [entry_open] root_action_string = some r) :=
  ⟨parse_menu_terminates.1 _,
    parse_menu_terminates.2.1 entry_open "Open".toList "Edit%7Ee%7Eedit|View%7Ev%7Eview".toList
      "open".toList (by decide),
    parse_menu_terminates.2.2 [entry_open] root_action_string⟩

/-- Claim C25. For every path beginning with `/`, with `m` the number of
elements of its split at `/`: the first element is empty, the write index `j`
is at most `m` at every test of the loop condition, and so is the index of the
final store `cpy[j] = NULL`; all stores are therefore within the `m + 1` slots
of `cpy` (and `j` is never below 0, as it is only decreased when positive). The
leading `/` is needed: run on the split of `a/b`, which has 2 elements, the
loop reaches `j = 3`. -/
theorem canonicalize_path_index_in_bounds (path : CStr) (habs : path.head? = some '/') :
    (g_strsplit path '/' 0).head? = some [] ∧
    (∀ j ∈ canonicalize_indices (g_strsplit path '/' 0) [['/']],
      j ≤ (g_strsplit path '/' 0).length) ∧
    (∀ cpy, canonicalize_loop (g_strsplit path '/' 0) [['/']] = some cpy →
      cpy.length ≤ (g_strsplit path '/' 0).length) ∧
    (g_strsplit "a/b".toList '/' 0).length = 2 ∧
    3 ∈ canonicalize_indices (g_strsplit "a/b".toList '/' 0) [['/']] := by
  cases path with
  | nil => simp at habs
  | cons c rest =>
    simp only [List.head?_cons, Option.some.injEq] at habs
    subst habs
    rw [g_strsplit_absolute]
    have hbound : ∀ j ∈ canonicalize_indices ([] :: split_all '/' rest) [['/']],
        j ≤ ([] :: split_all '/' rest).length := by
      intro j hj
      unfold canonicalize_indices at hj
      simp only [List.length_cons]
      rcases List.mem_cons.1 hj with hj | hj
      · simp only [List.length_singleton] at hj
        omega
      · rw [if_neg (by decide), if_neg (by simp)] at hj
        have := canonicalize_indices_le _ _ j hj
        simp only [List.length_singleton] at this
        omega
    exact ⟨rfl, hbound, fun cpy h => hbound _ (canonicalize_loop_length_mem _ _ _ h),
      by decide, by decide⟩

/-- Claim C25 on an example: the path `/a/./b/../c`. -/
theorem canonicalize_path_index_in_bounds_witness :
    (g_strsplit "/a/./b/../c".toList '/' 0).head? = some [] ∧
    (∀ j ∈ canonicalize_indices (g_strsplit "/a/./b/../c".toList '/' 0) [['/']],
      j ≤ (g_strsplit "/a/./b/../c".toList '/' 0).length) ∧
    (∀ cpy, canonicalize_loop (g_strsplit "/a/./b/../c".toList '/' 0) [['/']] = some cpy →
      cpy.length ≤ (g_strsplit "/a/./b/../c".toList '/' 0).length) ∧
    (g_strsplit "a/b".toList '/' 0).length = 2 ∧
    3 ∈ canonicalize_indices (g_strsplit "a/b".toList '/' 0) [['/']] :=
  canonicalize_path_index_in_bounds "/a/./b/../c".toList (by decide)

end Caja
